import Mathlib

/-!
# Verification of the ColECM 2D force-field evaluator and integrator

A shallow embedding of `src/sim_tools_2D.py` (functions `cos_sin_theta`,
`calc_energy_forces`, the periodic-wrap step of `velocity_verlet_alg`, and the
reduction step of `velocity_verlet_alg_mpi`) over the real numbers, together
with theorems settling the specification claims about it.

The helper module `utilities` (`ut.pot_vdw`, `ut.force_vdw`, `ut.pot_harmonic`,
`ut.force_harmonic`, `ut.check_cutoff`, `ut.get_distances_mpi`) and the MPI
collectives (`comm.gather`, `comm.allreduce`) are not part of the sources;
those definitions are modelled from the specification, as marked.

NumPy conventions reflected in the embedding:
* a cast `np.array(q, dtype=int)` truncates toward zero (`trunc0`);
* fancy-indexed in-place addition `a[idx] += v` gathers from the original
  array, adds, and scatters; for a repeated index the last write wins, the
  contributions do not accumulate (`npAddAtL`);
* `np.sum(axis=0)` forms column sums, `np.sum(axis=1)` row sums.
-/

namespace ColECM

noncomputable section

/-- Truncation toward zero, the effect of NumPy's `np.array(q, dtype=int)`. -/
def trunc0 (q : ℝ) : ℤ := if 0 ≤ q then ⌊q⌋ else ⌈q⌉

/-- Modelled from the spec (Geometry Kernel, missing `ut.get_distances_mpi`):
the general minimum-image correction along one axis, subtracting the nearest
integer multiple of the box length. -/
def minImage (L d : ℝ) : ℝ := d - L * (round (d / L) : ℤ)

/-- Line 323 of `sim_tools_2D.py` (and line 430 of the MPI variant): the
periodic wrap `pos += cell * (1 - np.array((pos + cell) / cell, dtype=int))`
applied to one position component. -/
def npWrap (L x : ℝ) : ℝ := x + L * (1 - (trunc0 ((x + L) / L) : ℝ))

/-- Line 165 of `sim_tools_2D.py`: the wrap applied to the angle-bond
displacements, `angle_dist[i] -= cell_dim[i] * np.array(2 * angle_dist[i] /
cell_dim[i], dtype=int)`, applied to one component. -/
def wrapAngle (L d : ℝ) : ℝ := d - L * (trunc0 (2 * d / L) : ℝ)

/-- Modelled from the spec (missing `ut.pot_vdw`): Lennard-Jones-style
potential as a function of the squared distance, using `vdw_sigma` and
`vdw_epsilon`. -/
def pot_vdw (r2 sig eps : ℝ) : ℝ := 4 * eps * ((sig ^ 2 / r2) ^ 6 - (sig ^ 2 / r2) ^ 3)

/-- Modelled from the spec (missing `ut.force_vdw`): Lennard-Jones-style
radial force factor as a function of the squared distance. -/
def force_vdw (r2 sig eps : ℝ) : ℝ := 24 * eps * (2 * (sig ^ 2 / r2) ^ 6 - (sig ^ 2 / r2) ^ 3)

/-- Modelled from the spec (missing `ut.pot_harmonic`): harmonic bond
potential `0.5 * k0 * (r - r0)^2`. -/
def pot_harmonic (r r0 k : ℝ) : ℝ := 0.5 * k * (r - r0) ^ 2

/-- Modelled from the spec (missing `ut.force_harmonic`): harmonic radial
force `-k0 * (r - r0)`. -/
def force_harmonic (r r0 k : ℝ) : ℝ := -(k * (r - r0))

/-- Modelled from the spec (missing `ut.check_cutoff`): indicator of the
cutoff check, 1 when the squared distance is below `rc^2`, else 0. -/
def check_cutoff (r2 rc2 : ℝ) : ℝ := if r2 < rc2 then 1 else 0

/-- The parameter fields of `param` used by `calc_energy_forces`. -/
structure Param where
  rc : ℝ
  vdw_sigma : ℝ
  vdw_epsilon : ℝ
  bond_r0 : ℝ
  bond_k0 : ℝ
  angle_k0 : ℝ

/-- The interaction index structures handed to `calc_energy_forces`:
`pos_indices` as a mask over bead-pair matrix positions, the paired
`bond_indices`/`frc_indices` lists, the angle triplets of `angle_indices`,
and the two displacement rows per angle of `angle_bond_indices`. -/
structure Topo where
  posIdx : ℕ × ℕ → Bool
  bonds : List (ℕ × ℕ)
  frcs : List (ℕ × ℕ)
  angles : List (ℕ × ℕ × ℕ)
  angleBonds : List ((ℕ × ℕ) × (ℕ × ℕ))

/-- `ut.get_distances_mpi(pos, pos_indices, cell_dim)`, modelled from the
spec: the dense per-pair displacement matrix along axis `i`, holding the
minimum-image displacement at each supplied index pair and 0 elsewhere. -/
def pairDist (pos : ℕ → Fin 2 → ℝ) (L : Fin 2 → ℝ) (posIdx : ℕ × ℕ → Bool)
    (i : Fin 2) (p : ℕ × ℕ) : ℝ :=
  if posIdx p then minImage (L i) (pos p.1 i - pos p.2 i) else 0

/-- Line 136: `pair_r2 = np.sum(pair_dist**2, axis=0)`. -/
def pairR2 (pos : ℕ → Fin 2 → ℝ) (L : Fin 2 → ℝ) (posIdx : ℕ × ℕ → Bool)
    (p : ℕ × ℕ) : ℝ :=
  ∑ i : Fin 2, (pairDist pos L posIdx i p) ^ 2

/-- Line 55: per vector pair, the dot product `np.sum(np.prod(temp_vector,
axis=1), axis=1)`. -/
def dotProd (u v : Fin 2 → ℝ) : ℝ := ∑ i : Fin 2, u i * v i

/-- Line 58: per vector pair, the pseudo-cross product
`np.linalg.det(temp_vector)`. -/
def crossProd (u v : Fin 2 → ℝ) : ℝ := u 0 * v 1 - u 1 * v 0

/-- `cos_sin_theta(vector, r_vector)` of `sim_tools_2D.py` lines 18-66, on one
pair of displacement vectors: the reshape into `(n_vector/2, 2, n_dim)` groups
the rows pairwise, and per group the function returns the cosine
(`dot_prod / r_prod`), the sine (`cross_prod / r_prod`) and the radial
product `r_prod = r1 * r2`. -/
def cos_sin_theta (u v : Fin 2 → ℝ) (r1 r2 : ℝ) : ℝ × ℝ × ℝ :=
  (dotProd u v / (r1 * r2), crossProd u v / (r1 * r2), r1 * r2)

/-- One angular interaction, pairing a row of `angle_indices` (the bead
triplet `i, j, k`) with its two rows `2m` and `2m+1` of `angle_bond_indices`
(the bead pairs whose displacements form the vectors `r_ij` and `r_jk`). -/
abbrev AngleEntry : Type := (ℕ × ℕ × ℕ) × ((ℕ × ℕ) × (ℕ × ℕ))

/-- Lines 164-165: one component of an angle-bond displacement
`pos[angle_bond_indices[0]] - pos[angle_bond_indices[1]]`, wrapped by
`wrapAngle`. -/
def angleDisp (pos : ℕ → Fin 2 → ℝ) (L : Fin 2 → ℝ) (row : ℕ × ℕ) (i : Fin 2) : ℝ :=
  wrapAngle (L i) (pos row.1 i - pos row.2 i)

/-- Line 173: `r_vector = np.sqrt(angle_r2)` for one angle-bond row. -/
def angleR (pos : ℕ → Fin 2 → ℝ) (L : Fin 2 → ℝ) (row : ℕ × ℕ) : ℝ :=
  Real.sqrt (∑ i : Fin 2, (angleDisp pos L row i) ^ 2)

/-- The first (`ij`, even-index) displacement vector of an angle entry. -/
def vecIJ (pos : ℕ → Fin 2 → ℝ) (L : Fin 2 → ℝ) (e : AngleEntry) : Fin 2 → ℝ :=
  angleDisp pos L e.2.1

/-- The second (`jk`, odd-index) displacement vector of an angle entry. -/
def vecJK (pos : ℕ → Fin 2 → ℝ) (L : Fin 2 → ℝ) (e : AngleEntry) : Fin 2 → ℝ :=
  angleDisp pos L e.2.2

/-- Line 174: the cosine returned by `cos_sin_theta` for one angle. -/
def cosThe (pos : ℕ → Fin 2 → ℝ) (L : Fin 2 → ℝ) (e : AngleEntry) : ℝ :=
  (cos_sin_theta (vecIJ pos L e) (vecJK pos L e)
    (angleR pos L e.2.1) (angleR pos L e.2.2)).1

/-- Line 174: the sine returned by `cos_sin_theta` for one angle. -/
def sinThe (pos : ℕ → Fin 2 → ℝ) (L : Fin 2 → ℝ) (e : AngleEntry) : ℝ :=
  (cos_sin_theta (vecIJ pos L e) (vecJK pos L e)
    (angleR pos L e.2.1) (angleR pos L e.2.2)).2.1

/-- Line 174: the radial product `r_prod` for one angle. -/
def rProd (pos : ℕ → Fin 2 → ℝ) (L : Fin 2 → ℝ) (e : AngleEntry) : ℝ :=
  (cos_sin_theta (vecIJ pos L e) (vecJK pos L e)
    (angleR pos L e.2.1) (angleR pos L e.2.2)).2.2

/-- Lines 178-194 at an even row `2m`: after `r_left[ij_indices] -=
r_right[jk_indices]`, the force `frc_angle_ij[2m] = angle_k0 *
(vector[2m] / r_prod - sin_the * vector[2m+1] / r_vector[2m+1]**2)`,
scattered onto the first bead of the triplet. -/
def frcAngleIJ (k0 : ℝ) (pos : ℕ → Fin 2 → ℝ) (L : Fin 2 → ℝ) (e : AngleEntry)
    (i : Fin 2) : ℝ :=
  k0 * (vecIJ pos L e i / rProd pos L e -
    sinThe pos L e * vecJK pos L e i / (angleR pos L e.2.2) ^ 2)

/-- Lines 178-194 at an odd row `2m+1`: the force `frc_angle_ij[2m+1] =
angle_k0 * (vector[2m+1] / r_prod - sin_the * vector[2m] /
r_vector[2m]**2)`, scattered onto the third bead of the triplet. -/
def frcAngleJK (k0 : ℝ) (pos : ℕ → Fin 2 → ℝ) (L : Fin 2 → ℝ) (e : AngleEntry)
    (i : Fin 2) : ℝ :=
  k0 * (vecJK pos L e i / rProd pos L e -
    sinThe pos L e * vecIJ pos L e i / (angleR pos L e.2.1) ^ 2)

/-- Line 195: `frc_angle_k = -np.sum(np.reshape(frc_angle_ij,
(n_vector/2, 2, 2)), axis=1)`, the force on the middle bead: minus the sum
of the two row forces of the same angle. -/
def frcAngleK (k0 : ℝ) (pos : ℕ → Fin 2 → ℝ) (L : Fin 2 → ℝ) (e : AngleEntry)
    (i : Fin 2) : ℝ :=
  -(frcAngleIJ k0 pos L e i + frcAngleJK k0 pos L e i)

/-- The amount added at position `x` by a NumPy fancy-indexed `a[idx] += v`:
the value of the LAST (index, value) pair hitting `x`, or 0 if none does.
The gather happens before any write, so for a repeated index only the last
write survives (the contributions do not accumulate). -/
def lastHit {α : Type} [DecidableEq α] (ps : List (α × ℝ)) (x : α) : ℝ :=
  (((ps.filter (fun q => q.1 = x)).getLast?).map Prod.snd).getD 0

/-- NumPy fancy-indexed in-place addition `a[idx] += v` over a list of
(index, value) pairs: the values are gathered from the original array, added,
and written back in order (last write wins). -/
def npAddAtL {α : Type} [DecidableEq α] (a : α → ℝ) (ps : List (α × ℝ)) (x : α) : ℝ :=
  a x + lastHit ps x

/-- Line 145 and 147: the bonded potential term `0.5 * np.sum(bond_pot)` with
`bond_pot = ut.pot_harmonic(bond_r, bond_r0, bond_k0)` and
`bond_r = np.sqrt(pair_r2[bond_indices])`. -/
def bondPotSum (P : Param) (pos : ℕ → Fin 2 → ℝ) (L : Fin 2 → ℝ)
    (posIdx : ℕ × ℕ → Bool) (bonds : List (ℕ × ℕ)) : ℝ :=
  0.5 * ((bonds.map (fun bp =>
    pot_harmonic (Real.sqrt (pairR2 pos L posIdx bp)) P.bond_r0 P.bond_k0)).sum)

/-- Lines 149-154: the value scattered for one bond along axis `i`,
`bond_frc * pair_dist[i][bond_indices] / bond_r`. -/
def bondVal (P : Param) (pos : ℕ → Fin 2 → ℝ) (L : Fin 2 → ℝ)
    (posIdx : ℕ × ℕ → Bool) (i : Fin 2) (bp : ℕ × ℕ) : ℝ :=
  force_harmonic (Real.sqrt (pairR2 pos L posIdx bp)) P.bond_r0 P.bond_k0 *
    pairDist pos L posIdx i bp / Real.sqrt (pairR2 pos L posIdx bp)

/-- Lines 152-154: `temp_frc[i][frc_indices] += bond_frc * pair_dist[i]
[bond_indices] / bond_r` on the zero matrix, with `bond_indices` and
`frc_indices` aligned entrywise. -/
def tempFrc (P : Param) (pos : ℕ → Fin 2 → ℝ) (L : Fin 2 → ℝ)
    (posIdx : ℕ × ℕ → Bool) (bonds frcs : List (ℕ × ℕ)) (i : Fin 2) :
    ℕ × ℕ → ℝ :=
  npAddAtL (fun _ => 0)
    ((bonds.zip frcs).map (fun q => (q.2, bondVal P pos L posIdx i q.1)))

/-- Lines 156-157: `f_beads += np.sum(temp_frc[i], axis=1)`, the row sums of
the scattered bond forces. -/
def bondForce (P : Param) (n : ℕ) (pos : ℕ → Fin 2 → ℝ) (L : Fin 2 → ℝ)
    (posIdx : ℕ × ℕ → Bool) (bonds frcs : List (ℕ × ℕ)) (i : Fin 2) (a : ℕ) : ℝ :=
  ∑ b ∈ Finset.range n, tempFrc P pos L posIdx bonds frcs i (a, b)

/-- Lines 198-204: the three fancy-indexed additions of the angular forces
onto the bead force array, `f_beads[angle_indices.T[0]] += frc_angle_ij
[ij_indices]`, then `f_beads[angle_indices.T[1]] += frc_angle_k`, then
`f_beads[angle_indices.T[2]] += frc_angle_ij[jk_indices]`. -/
def bondAngleForce (P : Param) (n : ℕ) (pos : ℕ → Fin 2 → ℝ) (L : Fin 2 → ℝ)
    (posIdx : ℕ × ℕ → Bool) (bonds frcs : List (ℕ × ℕ))
    (aps : List AngleEntry) (i : Fin 2) : ℕ → ℝ :=
  npAddAtL
    (npAddAtL
      (npAddAtL (bondForce P n pos L posIdx bonds frcs i)
        (aps.map (fun e => (e.1.1, frcAngleIJ P.angle_k0 pos L e i))))
      (aps.map (fun e => (e.1.2.1, frcAngleK P.angle_k0 pos L e i))))
    (aps.map (fun e => (e.1.2.2, frcAngleJK P.angle_k0 pos L e i)))

/-- Line 175: the angular potential term `angle_k0 * np.sum(cos_the + 1)`. -/
def anglePotSum (P : Param) (pos : ℕ → Fin 2 → ℝ) (L : Fin 2 → ℝ)
    (aps : List AngleEntry) : ℝ :=
  P.angle_k0 * ((aps.map (fun e => cosThe pos L e + 1)).sum)

/-- Line 130: `cut_frc = ut.force_vdw(rc**2, vdw_sigma, vdw_epsilon)`. -/
def cutFrc (P : Param) : ℝ := force_vdw (P.rc ^ 2) P.vdw_sigma P.vdw_epsilon

/-- Line 131: `cut_pot = ut.pot_vdw(rc**2, vdw_sigma, vdw_epsilon)`. -/
def cutPot (P : Param) : ℝ := pot_vdw (P.rc ^ 2) P.vdw_sigma P.vdw_epsilon

/-- Lines 208-209: `non_zero = np.nonzero(pair_r2 * verlet_list)` with
`verlet_list = ut.check_cutoff(pair_r2, rc**2)`, over the `n_bead x n_bead`
matrix positions. -/
def nonZero (P : Param) (n : ℕ) (pos : ℕ → Fin 2 → ℝ) (L : Fin 2 → ℝ)
    (posIdx : ℕ × ℕ → Bool) : Finset (ℕ × ℕ) :=
  (Finset.range n ×ˢ Finset.range n).filter (fun p =>
    pairR2 pos L posIdx p * check_cutoff (pairR2 pos L posIdx p) (P.rc ^ 2) ≠ 0)

/-- Lines 211-212: the non-bonded potential,
`np.nansum(vdw_coeff[non_zero] * ut.pot_vdw((pair_r2 * verlet_list)
[non_zero], ...) - cut_pot) / 2`; note that `cut_pot` is subtracted from
every selected entry and is not scaled by `vdw_coeff`. -/
def nonbondPot (P : Param) (n : ℕ) (pos : ℕ → Fin 2 → ℝ) (L : Fin 2 → ℝ)
    (posIdx : ℕ × ℕ → Bool) (vdwCoeff : ℕ × ℕ → ℝ) : ℝ :=
  (∑ p ∈ nonZero P n pos L posIdx,
    (vdwCoeff p *
      pot_vdw (pairR2 pos L posIdx p * check_cutoff (pairR2 pos L posIdx p) (P.rc ^ 2))
        P.vdw_sigma P.vdw_epsilon - cutPot P)) / 2

/-- Lines 214-218: `temp_xy[i][non_zero] += nonbond_frc * (pair_dist[i]
[non_zero] / pair_r2[non_zero])` on the zero matrix, with `nonbond_frc =
vdw_coeff[non_zero] * ut.force_vdw(...) - cut_frc`. -/
def tempXY (P : Param) (pos : ℕ → Fin 2 → ℝ) (L : Fin 2 → ℝ)
    (posIdx : ℕ × ℕ → Bool) (vdwCoeff : ℕ × ℕ → ℝ) (i : Fin 2) (p : ℕ × ℕ) : ℝ :=
  if pairR2 pos L posIdx p * check_cutoff (pairR2 pos L posIdx p) (P.rc ^ 2) ≠ 0 then
    (vdwCoeff p *
      force_vdw (pairR2 pos L posIdx p * check_cutoff (pairR2 pos L posIdx p) (P.rc ^ 2))
        P.vdw_sigma P.vdw_epsilon - cutFrc P) *
      (pairDist pos L posIdx i p / pairR2 pos L posIdx p)
  else 0

/-- Lines 222-223: `f_beads += np.sum(temp_xy[i], axis=0)`, the column sums
of the non-bonded force matrix. -/
def nonbondForce (P : Param) (n : ℕ) (pos : ℕ → Fin 2 → ℝ) (L : Fin 2 → ℝ)
    (posIdx : ℕ × ℕ → Bool) (vdwCoeff : ℕ × ℕ → ℝ) (i : Fin 2) (a : ℕ) : ℝ :=
  ∑ b ∈ Finset.range n, tempXY P pos L posIdx vdwCoeff i (b, a)

/-- Lines 219-220: `virial_tensor[i][j] += np.sum((temp_xy[i] * pair_dist[i]
* pair_dist[j])[virial_indicies])`. -/
def virialTensor (P : Param) (n : ℕ) (pos : ℕ → Fin 2 → ℝ) (L : Fin 2 → ℝ)
    (posIdx : ℕ × ℕ → Bool) (vdwCoeff : ℕ × ℕ → ℝ) (virialIdx : ℕ × ℕ → Bool)
    (i j : Fin 2) : ℝ :=
  ∑ p ∈ (Finset.range n ×ˢ Finset.range n).filter (fun p => virialIdx p),
    tempXY P pos L posIdx vdwCoeff i p * pairDist pos L posIdx i p *
      pairDist pos L posIdx j p

/-- `calc_energy_forces` of `sim_tools_2D.py` lines 69-227: the total
potential energy, the per-bead forces (bead, axis), and the 2x2 virial
tensor.  The bonded and angular blocks run only when `n_bond > 0`
(line 138); the `except IndexError: pass` of the angular block makes an
empty angle set contribute nothing. -/
def calc_energy_forces (P : Param) (n : ℕ) (pos : ℕ → Fin 2 → ℝ)
    (L : Fin 2 → ℝ) (T : Topo) (vdwCoeff : ℕ × ℕ → ℝ)
    (virialIdx : ℕ × ℕ → Bool) :
    ℝ × (ℕ → Fin 2 → ℝ) × (Fin 2 → Fin 2 → ℝ) :=
  ((if T.bonds ≠ [] then
      bondPotSum P pos L T.posIdx T.bonds +
        anglePotSum P pos L (T.angles.zip T.angleBonds)
    else 0) + nonbondPot P n pos L T.posIdx vdwCoeff,
   fun a i =>
     (if T.bonds ≠ [] then
        bondAngleForce P n pos L T.posIdx T.bonds T.frcs
          (T.angles.zip T.angleBonds) i a
      else 0) + nonbondForce P n pos L T.posIdx vdwCoeff i a,
   fun i j => virialTensor P n pos L T.posIdx vdwCoeff virialIdx i j)

/-- Lines 322-323 (and 429-430): the periodic wrap step of
`velocity_verlet_alg`, applied to every component of every bead position. -/
def wrapPos (L : Fin 2 → ℝ) (pos : ℕ → Fin 2 → ℝ) : ℕ → Fin 2 → ℝ :=
  fun a i => npWrap (L i) (pos a i)

/-- Modelled from the spec (external communication facility):
`comm.gather(x, root)` returns the list of per-rank values on the root
process and nothing on every other rank. -/
def mpiGather (size : ℕ) (vals : ℕ → ℝ) (root rank : ℕ) : Option (List ℝ) :=
  if rank = root then some ((List.range size).map vals) else none

/-- `np.sum` applied to the object a rank receives from `comm.gather`: on the
root it sums the gathered list; a non-root rank has no list to sum, so it
does not obtain the global value. -/
def npSumGather : Option (List ℝ) → Option ℝ
  | none => none
  | some l => some l.sum

/-- Modelled from the spec (external communication facility):
`comm.allreduce(x, op=MPI.SUM)` gives every rank the element-wise sum of the
per-rank arrays. -/
def mpiAllreduce {α : Type} (size : ℕ) (vals : ℕ → α → ℝ) (_rank : ℕ) : α → ℝ :=
  fun x => ((List.range size).map (fun r => vals r x)).sum

/-- Lines 435-437 of `sim_tools_2D.py`: the reduction step of
`velocity_verlet_alg_mpi`, combining the per-rank energy (`np.sum` of a
`comm.gather` to root 0), force array (`comm.allreduce`, summed) and virial
tensor (`comm.allreduce`, summed), as seen by process `rank`. -/
def reduceStep (size : ℕ) (potE : ℕ → ℝ) (frc : ℕ → ℕ → Fin 2 → ℝ)
    (vir : ℕ → Fin 2 → Fin 2 → ℝ) (rank : ℕ) :
    Option ℝ × (ℕ → Fin 2 → ℝ) × (Fin 2 → Fin 2 → ℝ) :=
  (npSumGather (mpiGather size potE 0 rank),
   fun a i => mpiAllreduce size (fun r q => frc r q.1 q.2) rank (a, i),
   fun i j => mpiAllreduce size (fun r q => vir r q.1 q.2) rank (i, j))

/-- The summand of the non-bonded energy (lines 211-212) at one matrix
position: the guarded `vdw_coeff * pot_vdw(...) - cut_pot` term. -/
def nbPotTerm (P : Param) (pos : ℕ → Fin 2 → ℝ) (L : Fin 2 → ℝ)
    (m : ℕ × ℕ → Bool) (vdwCoeff : ℕ × ℕ → ℝ) (p : ℕ × ℕ) : ℝ :=
  if pairR2 pos L m p * check_cutoff (pairR2 pos L m p) (P.rc ^ 2) ≠ 0 then
    vdwCoeff p *
      pot_vdw (pairR2 pos L m p * check_cutoff (pairR2 pos L m p) (P.rc ^ 2))
        P.vdw_sigma P.vdw_epsilon - cutPot P
  else 0

/-- The summand of the virial tensor (lines 219-220) at one matrix
position. -/
def virTerm (P : Param) (pos : ℕ → Fin 2 → ℝ) (L : Fin 2 → ℝ)
    (m : ℕ × ℕ → Bool) (vdwCoeff : ℕ × ℕ → ℝ) (virialIdx : ℕ × ℕ → Bool)
    (i j : Fin 2) (p : ℕ × ℕ) : ℝ :=
  if virialIdx p then
    tempXY P pos L m vdwCoeff i p * pairDist pos L m i p * pairDist pos L m j p
  else 0

/-- The non-bonded energy summand as a function of the displacement vector
alone (the shape shared by the full evaluation and every slice). -/
def nbPotG (P : Param) (vdwCoeff : ℕ × ℕ → ℝ) (v : Fin 2 → ℝ) (q : ℕ × ℕ) : ℝ :=
  if (∑ i : Fin 2, v i ^ 2) * check_cutoff (∑ i : Fin 2, v i ^ 2) (P.rc ^ 2) ≠ 0 then
    vdwCoeff q *
      pot_vdw ((∑ i : Fin 2, v i ^ 2) * check_cutoff (∑ i : Fin 2, v i ^ 2) (P.rc ^ 2))
        P.vdw_sigma P.vdw_epsilon - cutPot P
  else 0

/-- The non-bonded force matrix entry as a function of the displacement
vector alone. -/
def nbFrcG (P : Param) (vdwCoeff : ℕ × ℕ → ℝ) (i : Fin 2) (v : Fin 2 → ℝ)
    (q : ℕ × ℕ) : ℝ :=
  if (∑ k : Fin 2, v k ^ 2) * check_cutoff (∑ k : Fin 2, v k ^ 2) (P.rc ^ 2) ≠ 0 then
    (vdwCoeff q *
      force_vdw ((∑ k : Fin 2, v k ^ 2) * check_cutoff (∑ k : Fin 2, v k ^ 2) (P.rc ^ 2))
        P.vdw_sigma P.vdw_epsilon - cutFrc P) * (v i / (∑ k : Fin 2, v k ^ 2))
  else 0

/-- The virial summand as a function of the displacement vector alone. -/
def virG (P : Param) (vdwCoeff : ℕ × ℕ → ℝ) (virialIdx : ℕ × ℕ → Bool)
    (i j : Fin 2) (v : Fin 2 → ℝ) (q : ℕ × ℕ) : ℝ :=
  if virialIdx q then nbFrcG P vdwCoeff i v q * v i * v j else 0

/-! ### Concrete configurations used to exercise the evaluator -/

/-- Two beads at (0,0) and (3,4) in a square box of side 10. -/
def pos34 : ℕ → Fin 2 → ℝ := fun a i => if a = 0 then 0 else if i = 0 then 3 else 4

/-- Two beads at (0,0) and (1,0) in a square box of side 10. -/
def posPair10 : ℕ → Fin 2 → ℝ := fun a i => if a = 0 then 0 else if i = 0 then 1 else 0

/-- Two beads at (0,0) and (9,1) in a square box of side 10. -/
def posPair91 : ℕ → Fin 2 → ℝ := fun a i => if a = 0 then 0 else if i = 0 then 9 else 1

/-- Three beads at (0,0), (1,0) and (1,1) in a square box of side 10. -/
def posChain : ℕ → Fin 2 → ℝ :=
  fun a i => if a = 0 then 0 else if a = 1 then (if i = 0 then 1 else 0) else 1

/-- A square box of side 10. -/
def box10 : Fin 2 → ℝ := fun _ => 10

/-- Parameters with `rc = 1/2` (no non-bonded pair within cutoff in the
three-bead chain) and unit bond/angle constants. -/
def paramC1 : Param := ⟨1/2, 1, 1, 1, 1, 1⟩

/-- The `pos_indices` mask selecting the single matrix position (0,1). -/
def maskC1 : ℕ × ℕ → Bool := fun q => q == ((0:ℕ), (1:ℕ))

/-- Full index structures of the three-bead chain: one bond (0,1) and one
angle (0,1,2) with displacement rows (0,1) and (2,1). -/
def topoFull : Topo := ⟨maskC1, [(0, 1)], [(0, 1)], [(0, 1, 2)], [((0, 1), (2, 1))]⟩

/-- Slice receiving the bond but no angle. -/
def topoBondSlice : Topo := ⟨maskC1, [(0, 1)], [(0, 1)], [], []⟩

/-- Slice receiving the angle but no bond (its angular block is skipped by
the `n_bond > 0` guard). -/
def topoAngleSlice : Topo := ⟨fun _ => false, [], [], [(0, 1, 2)], [((0, 1), (2, 1))]⟩

/-- The empty slice. -/
def topoEmpty : Topo := ⟨fun _ => false, [], [], [], []⟩

/-- A disjoint, covering distribution of the interaction index structures of
`F` over the slices `ss` (one per process), as set up for
`velocity_verlet_alg_mpi`:
* every matrix position of the `pos_indices` mask belongs to exactly one
  slice, and positions outside the full mask to none;
* the entrywise-paired `bond_indices`/`frc_indices` lists (and the paired
  `angle_indices`/`angle_bond_indices` lists) of the slices form, up to
  order, exactly the full lists, with matching lengths;
* each slice's bonded pairs lie inside its own `pos_indices` mask;
* the scatter index lists are duplicate-free (`frc_indices`, and each of the
  three bead columns of `angle_indices`), so NumPy's buffered fancy-indexed
  `+=` accumulates faithfully;
* a slice holding angle entries also holds at least one bond (otherwise the
  `n_bond > 0` guard of `calc_energy_forces` silently drops its angles). -/
def ValidPartition (F : Topo) (ss : List Topo) : Prop :=
  (∀ p, ss.countP (fun s => s.posIdx p) = if F.posIdx p then 1 else 0) ∧
  F.bonds.length = F.frcs.length ∧
  F.angles.length = F.angleBonds.length ∧
  (∀ s ∈ ss, s.bonds.length = s.frcs.length ∧ s.angles.length = s.angleBonds.length) ∧
  (F.bonds.zip F.frcs).Perm ((ss.map (fun s => s.bonds.zip s.frcs)).flatten) ∧
  (F.angles.zip F.angleBonds).Perm
    ((ss.map (fun s => s.angles.zip s.angleBonds)).flatten) ∧
  (∀ s ∈ ss, ∀ bp ∈ s.bonds, s.posIdx bp = true) ∧
  F.frcs.Nodup ∧
  (F.angles.map (fun t => t.1)).Nodup ∧
  (F.angles.map (fun t => t.2.1)).Nodup ∧
  (F.angles.map (fun t => t.2.2)).Nodup ∧
  (∀ s ∈ ss, s.angles ≠ [] → s.bonds ≠ [])

end

/-! ## Theorems -/

/-- Helper: the energy component of `calc_energy_forces`. -/
theorem calc_energy (P : Param) (n : ℕ) (pos : ℕ → Fin 2 → ℝ) (L : Fin 2 → ℝ)
    (T : Topo) (vdwCoeff : ℕ × ℕ → ℝ) (virialIdx : ℕ × ℕ → Bool) :
    (calc_energy_forces P n pos L T vdwCoeff virialIdx).1 =
      (if T.bonds ≠ [] then
        bondPotSum P pos L T.posIdx T.bonds +
          anglePotSum P pos L (T.angles.zip T.angleBonds)
      else 0) + nonbondPot P n pos L T.posIdx vdwCoeff := rfl

/-- Helper: the force component of `calc_energy_forces`. -/
theorem calc_force (P : Param) (n : ℕ) (pos : ℕ → Fin 2 → ℝ) (L : Fin 2 → ℝ)
    (T : Topo) (vdwCoeff : ℕ × ℕ → ℝ) (virialIdx : ℕ × ℕ → Bool) (a : ℕ) (i : Fin 2) :
    (calc_energy_forces P n pos L T vdwCoeff virialIdx).2.1 a i =
      (if T.bonds ≠ [] then
        bondAngleForce P n pos L T.posIdx T.bonds T.frcs (T.angles.zip T.angleBonds) i a
      else 0) + nonbondForce P n pos L T.posIdx vdwCoeff i a := rfl

/-- Helper: the virial component of `calc_energy_forces`. -/
theorem calc_virial (P : Param) (n : ℕ) (pos : ℕ → Fin 2 → ℝ) (L : Fin 2 → ℝ)
    (T : Topo) (vdwCoeff : ℕ × ℕ → ℝ) (virialIdx : ℕ × ℕ → Bool) (i j : Fin 2) :
    (calc_energy_forces P n pos L T vdwCoeff virialIdx).2.2 i j =
      virialTensor P n pos L T.posIdx vdwCoeff virialIdx i j := rfl

/-- Helper: a matrix position outside the `pos_indices` mask has zero
displacement and zero squared distance. -/
theorem pairR2_off_mask (pos : ℕ → Fin 2 → ℝ) (L : Fin 2 → ℝ)
    (posIdx : ℕ × ℕ → Bool) (q : ℕ × ℕ) (h : posIdx q = false) :
    pairR2 pos L posIdx q = 0 := by
  simp [pairR2, pairDist, h]

/-- Helper: sums over the 2x2 matrix grid, expanded. -/
theorem sum_grid2 (f : ℕ × ℕ → ℝ) :
    ∑ p ∈ Finset.range 2 ×ˢ Finset.range 2, f p =
      f (0, 0) + f (0, 1) + f (1, 0) + f (1, 1) := by
  rw [show (Finset.range 2 ×ˢ Finset.range 2 : Finset (ℕ × ℕ))
      = {(0, 0), (0, 1), (1, 0), (1, 1)} by decide]
  rw [Finset.sum_insert (by decide), Finset.sum_insert (by decide),
    Finset.sum_insert (by decide), Finset.sum_singleton]
  ring

/-- Helper: sums over the 3x3 matrix grid, expanded. -/
theorem sum_grid3 (f : ℕ × ℕ → ℝ) :
    ∑ p ∈ Finset.range 3 ×ˢ Finset.range 3, f p =
      f (0, 0) + f (0, 1) + f (0, 2) + f (1, 0) + f (1, 1) + f (1, 2) +
        f (2, 0) + f (2, 1) + f (2, 2) := by
  rw [show (Finset.range 3 ×ˢ Finset.range 3 : Finset (ℕ × ℕ))
      = {(0, 0), (0, 1), (0, 2), (1, 0), (1, 1), (1, 2), (2, 0), (2, 1), (2, 2)} by decide]
  rw [Finset.sum_insert (by decide), Finset.sum_insert (by decide),
    Finset.sum_insert (by decide), Finset.sum_insert (by decide),
    Finset.sum_insert (by decide), Finset.sum_insert (by decide),
    Finset.sum_insert (by decide), Finset.sum_insert (by decide),
    Finset.sum_singleton]
  ring

/-- Helper: the nonbonded energy as a sum of guarded terms over all matrix
positions. -/
theorem nonbondPot_eq_sum_ite (P : Param) (n : ℕ) (pos : ℕ → Fin 2 → ℝ)
    (L : Fin 2 → ℝ) (posIdx : ℕ × ℕ → Bool) (vdwCoeff : ℕ × ℕ → ℝ) :
    nonbondPot P n pos L posIdx vdwCoeff =
      (∑ p ∈ Finset.range n ×ˢ Finset.range n,
        if pairR2 pos L posIdx p * check_cutoff (pairR2 pos L posIdx p) (P.rc ^ 2) ≠ 0 then
          vdwCoeff p *
            pot_vdw (pairR2 pos L posIdx p * check_cutoff (pairR2 pos L posIdx p) (P.rc ^ 2))
              P.vdw_sigma P.vdw_epsilon - cutPot P
        else 0) / 2 := by
  rw [nonbondPot, nonZero, Finset.sum_filter]

/-- Helper: the virial tensor as a sum of guarded terms over all matrix
positions. -/
theorem virialTensor_eq_sum_ite (P : Param) (n : ℕ) (pos : ℕ → Fin 2 → ℝ)
    (L : Fin 2 → ℝ) (posIdx : ℕ × ℕ → Bool) (vdwCoeff : ℕ × ℕ → ℝ)
    (virialIdx : ℕ × ℕ → Bool) (i j : Fin 2) :
    virialTensor P n pos L posIdx vdwCoeff virialIdx i j =
      ∑ p ∈ Finset.range n ×ˢ Finset.range n,
        if virialIdx p then
          tempXY P pos L posIdx vdwCoeff i p * pairDist pos L posIdx i p *
            pairDist pos L posIdx j p
        else 0 := by
  rw [virialTensor, Finset.sum_filter]

/-- Helper: rounding a real in `[-1/2, 1/2)` gives zero. -/
theorem round_small {x : ℝ} (h1 : -(1/2) ≤ x) (h2 : x < 1/2) : round x = 0 :=
  round_eq_zero_iff.mpr ⟨h1, h2⟩

/-- Helper: the minimum image of a displacement already in
`[-L/2, L/2)` is itself. -/
theorem minImage_small {L d : ℝ} (hL : 0 < L) (h1 : -(L/2) ≤ d) (h2 : d < L/2) :
    minImage L d = d := by
  have hr : round (d / L) = 0 := by
    apply round_small
    · rw [le_div_iff hL]
      linarith
    · rw [div_lt_iff hL]
      linarith
  rw [minImage, hr]
  simp

/-- C10: for two displacement vectors of nonzero length, the cosine and sine
returned by `cos_sin_theta` (the dot product and the 2D determinant, each
divided by the product of the two vector lengths) form an exactly normalized
pair: `cos_the^2 + sin_the^2 = 1`. -/
theorem cos_sin_theta_normalized (u v : Fin 2 → ℝ)
    (hu : 0 < ∑ i : Fin 2, u i ^ 2) (hv : 0 < ∑ i : Fin 2, v i ^ 2) :
    (cos_sin_theta u v (Real.sqrt (∑ i : Fin 2, u i ^ 2))
        (Real.sqrt (∑ i : Fin 2, v i ^ 2))).1 ^ 2 +
      (cos_sin_theta u v (Real.sqrt (∑ i : Fin 2, u i ^ 2))
        (Real.sqrt (∑ i : Fin 2, v i ^ 2))).2.1 ^ 2 = 1 := by
  have hA : Real.sqrt (∑ i : Fin 2, u i ^ 2) ^ 2 = ∑ i : Fin 2, u i ^ 2 :=
    Real.sq_sqrt hu.le
  have hB : Real.sqrt (∑ i : Fin 2, v i ^ 2) ^ 2 = ∑ i : Fin 2, v i ^ 2 :=
    Real.sq_sqrt hv.le
  have hAB : (Real.sqrt (∑ i : Fin 2, u i ^ 2) * Real.sqrt (∑ i : Fin 2, v i ^ 2)) ^ 2
      = (∑ i : Fin 2, u i ^ 2) * (∑ i : Fin 2, v i ^ 2) := by
    rw [mul_pow, hA, hB]
  have hne : (∑ i : Fin 2, u i ^ 2) * (∑ i : Fin 2, v i ^ 2) ≠ 0 :=
    (mul_pos hu hv).ne'
  rw [cos_sin_theta]
  simp only
  rw [div_pow, div_pow, div_add_div_same, hAB]
  rw [show (dotProd u v) ^ 2 + (crossProd u v) ^ 2
      = (∑ i : Fin 2, u i ^ 2) * (∑ i : Fin 2, v i ^ 2) by
    simp only [dotProd, crossProd, Fin.sum_univ_two]
    ring]
  exact div_self hne

/-- Witness for C10 at the concrete vectors (3,4) and (0,1). -/
theorem cos_sin_theta_normalized_witness :
    (0 < ∑ i : Fin 2, (![(3:ℝ), 4]) i ^ 2) ∧
    (0 < ∑ i : Fin 2, (![(0:ℝ), 1]) i ^ 2) ∧
    ((cos_sin_theta ![(3:ℝ), 4] ![(0:ℝ), 1]
        (Real.sqrt (∑ i : Fin 2, (![(3:ℝ), 4]) i ^ 2))
        (Real.sqrt (∑ i : Fin 2, (![(0:ℝ), 1]) i ^ 2))).1 ^ 2 +
      (cos_sin_theta ![(3:ℝ), 4] ![(0:ℝ), 1]
        (Real.sqrt (∑ i : Fin 2, (![(3:ℝ), 4]) i ^ 2))
        (Real.sqrt (∑ i : Fin 2, (![(0:ℝ), 1]) i ^ 2))).2.1 ^ 2 = 1) :=
  ⟨by norm_num [Fin.sum_univ_two], by norm_num [Fin.sum_univ_two],
    cos_sin_theta_normalized ![(3:ℝ), 4] ![(0:ℝ), 1]
      (by norm_num [Fin.sum_univ_two]) (by norm_num [Fin.sum_univ_two])⟩

/-- C6 (counterexample): the wrap of `velocity_verlet_alg` does not land in
`[0, cell_dim)` for every pre-wrap position: a component at -15 in a box of
length 10 is wrapped to -5. -/
theorem wrap_counterexample :
    ¬ (0 ≤ wrapPos (fun _ => (10:ℝ)) (fun _ _ => (-15:ℝ)) 0 0 ∧
       wrapPos (fun _ => (10:ℝ)) (fun _ _ => (-15:ℝ)) 0 0 < 10) := by
  have h : wrapPos (fun _ => (10:ℝ)) (fun _ _ => (-15:ℝ)) 0 0 = -5 := by
    rw [wrapPos, npWrap, trunc0, if_neg (by norm_num)]
    rw [show ((-15:ℝ) + 10) / 10 = -(1/2) by norm_num,
      show ⌈-(1/2 : ℝ)⌉ = 0 by rw [Int.ceil_eq_iff] <;> norm_num]
    norm_num
  rw [h]
  norm_num

/-- C6 (amended): the periodic wrap of `velocity_verlet_alg` sends a
component into `[0, cell_dim)` provided the pre-wrap component is at least
`-cell_dim`; the integer conversion truncates toward zero, so positions
below `-cell_dim` stay negative. -/
theorem wrap_in_range (L x : ℝ) (hL : 0 < L) (hx : -L ≤ x) :
    0 ≤ npWrap L x ∧ npWrap L x < L := by
  have hq : 0 ≤ (x + L) / L := div_nonneg (by linarith) hL.le
  have key : npWrap L x = L * Int.fract ((x + L) / L) := by
    rw [npWrap, trunc0, if_pos hq, ← Int.self_sub_floor]
    have hL0 : L ≠ 0 := hL.ne'
    field_simp
    ring
  rw [key]
  constructor
  · exact mul_nonneg hL.le (Int.fract_nonneg _)
  · calc L * Int.fract ((x + L) / L) < L * 1 :=
        (mul_lt_mul_of_pos_left (Int.fract_lt_one _) hL)
    _ = L := mul_one L

/-- Witness for C6 (amended) at box length 10 and pre-wrap component 3. -/
theorem wrap_in_range_witness :
    (0:ℝ) < 10 ∧ -(10:ℝ) ≤ 3 ∧ (0 ≤ npWrap 10 3 ∧ npWrap 10 3 < 10) :=
  ⟨by norm_num, by norm_num, wrap_in_range 10 3 (by norm_num) (by norm_num)⟩

/-- C7 (counterexample): the angle-bond wrap of `calc_energy_forces` is the
single-truncation correction, not the general minimum-image formula: a
displacement of 15 in a box of length 10 is corrected to -15, outside
`[-5, 5]`. -/
theorem angle_wrap_counterexample :
    ¬ (-(10 / 2 : ℝ) ≤ wrapAngle 10 15 ∧ wrapAngle 10 15 ≤ 10 / 2) := by
  have h : wrapAngle 10 15 = -15 := by
    rw [wrapAngle, trunc0, if_pos (by norm_num)]
    norm_num
  rw [h]
  norm_num

/-- C7 (amended): the angle-bond correction of `calc_energy_forces` lands in
`[-cell_dim/2, cell_dim/2]` for displacements of magnitude strictly below one
box length; beyond one box length it can fall outside that interval. -/
theorem angle_wrap_min_image (L d : ℝ) (hL : 0 < L) (hd : |d| < L) :
    -(L / 2) ≤ wrapAngle L d ∧ wrapAngle L d ≤ L / 2 := by
  rw [abs_lt] at hd
  rw [wrapAngle, trunc0]
  by_cases hq : 0 ≤ 2 * d / L
  · rw [if_pos hq]
    have hk0 : (0:ℤ) ≤ ⌊2 * d / L⌋ := Int.floor_nonneg.mpr hq
    have hk2 : ⌊2 * d / L⌋ < 2 := by
      rw [Int.floor_lt]
      push_cast
      rw [div_lt_iff hL]
      linarith [hd.2]
    have hlow : (⌊2 * d / L⌋ : ℝ) * L ≤ 2 * d := by
      rw [← le_div_iff hL]
      exact Int.floor_le _
    have hhigh : 2 * d < ((⌊2 * d / L⌋ : ℝ) + 1) * L := by
      rw [← div_lt_iff hL]
      exact Int.lt_floor_add_one _
    have hcases : ⌊2 * d / L⌋ = 0 ∨ ⌊2 * d / L⌋ = 1 := by omega
    rcases hcases with h | h <;>
      · rw [h] at hlow hhigh ⊢
        push_cast at hlow hhigh ⊢
        constructor <;> linarith
  · rw [if_neg hq]
    push_neg at hq
    have hk1 : (-2:ℤ) < ⌈2 * d / L⌉ := by
      rw [Int.lt_ceil]
      push_cast
      rw [lt_div_iff hL]
      linarith [hd.1]
    have hk0 : ⌈2 * d / L⌉ ≤ 0 := by
      rw [Int.ceil_le]
      push_cast
      exact hq.le
    have hlow : ((⌈2 * d / L⌉ : ℝ) - 1) * L < 2 * d := by
      rw [← lt_div_iff hL]
      linarith [Int.ceil_lt_add_one (2 * d / L)]
    have hhigh : 2 * d ≤ (⌈2 * d / L⌉ : ℝ) * L := by
      rw [← div_le_iff hL]
      exact Int.le_ceil _
    have hcases : ⌈2 * d / L⌉ = -1 ∨ ⌈2 * d / L⌉ = 0 := by omega
    rcases hcases with h | h <;>
      · rw [h] at hlow hhigh ⊢
        push_cast at hlow hhigh ⊢
        constructor <;> linarith

/-- Witness for C7 (amended) at box length 10 and displacement 6. -/
theorem angle_wrap_min_image_witness :
    (0:ℝ) < 10 ∧ |(6:ℝ)| < 10 ∧
      (-(10 / 2 : ℝ) ≤ wrapAngle 10 6 ∧ wrapAngle 10 6 ≤ 10 / 2) :=
  ⟨by norm_num, by norm_num, angle_wrap_min_image 10 6 (by norm_num) (by norm_num)⟩

/-- C2 (counterexample): after the reduction step, the root rank holds the
summed potential energy but a non-root rank does not receive it
(`comm.gather` delivers the list of partials only to the root), so not every
rank returns the same potential energy. -/
theorem gather_energy_counterexample :
    (reduceStep 2 (fun r => if r = 0 then 1 else 2) (fun _ _ _ => 0)
        (fun _ _ _ => 0) 0).1 = some 3 ∧
    (reduceStep 2 (fun r => if r = 0 then 1 else 2) (fun _ _ _ => 0)
        (fun _ _ _ => 0) 1).1 = none ∧
    (reduceStep 2 (fun r => if r = 0 then 1 else 2) (fun _ _ _ => 0)
        (fun _ _ _ => 0) 1).1 ≠
      (reduceStep 2 (fun r => if r = 0 then 1 else 2) (fun _ _ _ => 0)
        (fun _ _ _ => 0) 0).1 := by
  refine ⟨?_, ?_, ?_⟩ <;>
    simp [reduceStep, mpiGather, npSumGather, List.range_succ] <;> norm_num

/-- C2 (amended): the reduction step of `velocity_verlet_alg_mpi` gives every
rank the identical element-wise sums of the partial force arrays and partial
virial tensors (`comm.allreduce` with `MPI.SUM`), while the partial potential
energies are summed only on the root rank 0; a non-root rank does not obtain
the combined energy. -/
theorem reduction_combines_partials (size : ℕ) (potE : ℕ → ℝ)
    (frc : ℕ → ℕ → Fin 2 → ℝ) (vir : ℕ → Fin 2 → Fin 2 → ℝ) (rank rank' : ℕ) :
    (reduceStep size potE frc vir rank).2.1 = (reduceStep size potE frc vir rank').2.1 ∧
    (reduceStep size potE frc vir rank).2.2 = (reduceStep size potE frc vir rank').2.2 ∧
    (∀ a i, (reduceStep size potE frc vir rank).2.1 a i
      = ((List.range size).map (fun r => frc r a i)).sum) ∧
    (∀ i j, (reduceStep size potE frc vir rank).2.2 i j
      = ((List.range size).map (fun r => vir r i j)).sum) ∧
    (reduceStep size potE frc vir 0).1 = some (((List.range size).map potE).sum) ∧
    (rank ≠ 0 → (reduceStep size potE frc vir rank).1 = none) := by
  refine ⟨rfl, rfl, fun a i => rfl, fun i j => rfl, ?_, fun h => ?_⟩
  · simp [reduceStep, mpiGather, npSumGather]
  · simp [reduceStep, mpiGather, npSumGather, h]

/-- Witness for C2 (amended) at two ranks, showing rank 1 ends the step
without the combined energy. -/
theorem reduction_combines_partials_witness :
    (1:ℕ) ≠ 0 ∧
      (reduceStep 2 (fun _ => 1) (fun _ _ _ => 0) (fun _ _ _ => 0) 1).1 = none :=
  ⟨one_ne_zero,
    (reduction_combines_partials 2 (fun _ => 1) (fun _ _ _ => 0)
      (fun _ _ _ => 0) 1 0).2.2.2.2.2 one_ne_zero⟩

/-- C3: a pair whose squared distance is exactly `rc^2` is excluded by the
strict cutoff check of `calc_energy_forces`, so for any `vdw_sigma`,
`vdw_epsilon` and any `vdw_coeff` it contributes exactly zero potential
energy, zero force and zero virial: the evaluation over a single such pair
returns all zeros. -/
theorem cutoff_pair_contributes_zero (P : Param) (n : ℕ) (pos : ℕ → Fin 2 → ℝ)
    (L : Fin 2 → ℝ) (p0 : ℕ × ℕ) (vdwCoeff : ℕ × ℕ → ℝ) (virialIdx : ℕ × ℕ → Bool)
    (h : pairR2 pos L (fun q => q == p0) p0 = P.rc ^ 2) :
    (calc_energy_forces P n pos L ⟨fun q => q == p0, [], [], [], []⟩
      vdwCoeff virialIdx).1 = 0 ∧
    (∀ a i, (calc_energy_forces P n pos L ⟨fun q => q == p0, [], [], [], []⟩
      vdwCoeff virialIdx).2.1 a i = 0) ∧
    (∀ i j, (calc_energy_forces P n pos L ⟨fun q => q == p0, [], [], [], []⟩
      vdwCoeff virialIdx).2.2 i j = 0) := by
  have hzero : ∀ q : ℕ × ℕ,
      pairR2 pos L (fun q' => q' == p0) q *
        check_cutoff (pairR2 pos L (fun q' => q' == p0) q) (P.rc ^ 2) = 0 := by
    intro q
    by_cases hq : q = p0
    · subst hq
      rw [h, check_cutoff, if_neg (lt_irrefl _), mul_zero]
    · rw [pairR2_off_mask pos L _ q (by simp [hq]), zero_mul]
  have hxy : ∀ (i : Fin 2) q,
      tempXY P pos L (fun q' => q' == p0) vdwCoeff i q = 0 := by
    intro i q
    rw [tempXY, if_neg (not_not_intro (hzero q))]
  refine ⟨?_, ?_, ?_⟩
  · rw [calc_energy, if_neg (by simp), zero_add, nonbondPot_eq_sum_ite]
    rw [Finset.sum_eq_zero (fun p _ => by rw [if_neg (not_not_intro (hzero p))])]
    norm_num
  · intro a i
    rw [calc_force, if_neg (by simp), zero_add, nonbondForce]
    exact Finset.sum_eq_zero (fun b _ => hxy i (b, a))
  · intro i j
    rw [calc_virial, virialTensor]
    exact Finset.sum_eq_zero (fun p _ => by rw [hxy i p, zero_mul, zero_mul])

/-- Witness for C3: two beads at (0,0) and (3,4), at distance exactly
`rc = 5`, contribute zero energy. -/
theorem cutoff_pair_contributes_zero_witness :
    pairR2 pos34 box10 (fun q => q == ((0:ℕ), (1:ℕ))) (0, 1) =
      (Param.mk 5 1 1 1 1 1).rc ^ 2 ∧
    (calc_energy_forces ⟨5, 1, 1, 1, 1, 1⟩ 2 pos34 box10
      ⟨fun q => q == ((0:ℕ), (1:ℕ)), [], [], [], []⟩ (fun _ => 1)
      (fun _ => true)).1 = 0 := by
  have hd0 : pairDist pos34 box10 (fun q => q == ((0:ℕ), (1:ℕ))) 0 (0, 1) = -3 := by
    rw [pairDist, if_pos (by decide)]
    rw [show pos34 0 0 - pos34 1 0 = -3 by norm_num [pos34]]
    exact minImage_small (by norm_num [box10]) (by norm_num [box10]) (by norm_num [box10])
  have hd1 : pairDist pos34 box10 (fun q => q == ((0:ℕ), (1:ℕ))) 1 (0, 1) = -4 := by
    rw [pairDist, if_pos (by decide)]
    rw [show pos34 0 1 - pos34 1 1 = -4 by norm_num [pos34]]
    exact minImage_small (by norm_num [box10]) (by norm_num [box10]) (by norm_num [box10])
  have h : pairR2 pos34 box10 (fun q => q == ((0:ℕ), (1:ℕ))) (0, 1) =
      (Param.mk 5 1 1 1 1 1).rc ^ 2 := by
    rw [pairR2, Fin.sum_univ_two, hd0, hd1]
    norm_num
  exact ⟨h, (cutoff_pair_contributes_zero ⟨5, 1, 1, 1, 1, 1⟩ 2 pos34 box10
    (0, 1) (fun _ => 1) (fun _ => true) h).1⟩

/-- C4 (evaluation at the failing input): a pair inside the cutoff whose
`vdw_coeff` entry is zero does NOT contribute zero: because the cutoff shift
`- cut_pot` / `- cut_frc` is not scaled by `vdw_coeff` (lines 211 and 214),
the pair at distance 1 with `rc = 2`, `sigma = eps = 1` contributes energy
`63/2048` and a force of `-93/256` on bead 1. -/
theorem zero_coeff_pair_eval :
    (calc_energy_forces ⟨2, 1, 1, 1, 1, 1⟩ 2 posPair10 box10
      ⟨fun q => q == ((0:ℕ), (1:ℕ)), [], [], [], []⟩ (fun _ => 0)
      (fun _ => true)).1 = 63 / 2048 ∧
    (calc_energy_forces ⟨2, 1, 1, 1, 1, 1⟩ 2 posPair10 box10
      ⟨fun q => q == ((0:ℕ), (1:ℕ)), [], [], [], []⟩ (fun _ => 0)
      (fun _ => true)).2.1 1 0 = -(93 / 256) ∧
    (63 / 2048 : ℝ) ≠ 0 ∧ (-(93 / 256) : ℝ) ≠ 0 := by
  have hd0 : pairDist posPair10 box10 (fun q => q == ((0:ℕ), (1:ℕ))) 0 (0, 1) = -1 := by
    rw [pairDist, if_pos (by decide)]
    rw [show posPair10 ((0:ℕ), (1:ℕ)).1 0 - posPair10 ((0:ℕ), (1:ℕ)).2 0 = -1 by
      norm_num [posPair10]]
    exact minImage_small (by norm_num [box10]) (by norm_num [box10]) (by norm_num [box10])
  have hd1 : pairDist posPair10 box10 (fun q => q == ((0:ℕ), (1:ℕ))) 1 (0, 1) = 0 := by
    rw [pairDist, if_pos (by decide)]
    rw [show posPair10 ((0:ℕ), (1:ℕ)).1 1 - posPair10 ((0:ℕ), (1:ℕ)).2 1 = 0 by
      norm_num [posPair10]]
    exact minImage_small (by norm_num [box10]) (by norm_num [box10]) (by norm_num [box10])
  have h01 : pairR2 posPair10 box10 (fun q => q == ((0:ℕ), (1:ℕ))) (0, 1) = 1 := by
    rw [pairR2, Fin.sum_univ_two, hd0, hd1]
    norm_num
  have h00 : pairR2 posPair10 box10 (fun q => q == ((0:ℕ), (1:ℕ))) (0, 0) = 0 :=
    pairR2_off_mask _ _ _ _ (by decide)
  have h10 : pairR2 posPair10 box10 (fun q => q == ((0:ℕ), (1:ℕ))) (1, 0) = 0 :=
    pairR2_off_mask _ _ _ _ (by decide)
  have h11 : pairR2 posPair10 box10 (fun q => q == ((0:ℕ), (1:ℕ))) (1, 1) = 0 :=
    pairR2_off_mask _ _ _ _ (by decide)
  refine ⟨?_, ?_, by norm_num, by norm_num⟩
  · rw [calc_energy, if_neg (by simp), zero_add, nonbondPot_eq_sum_ite, sum_grid2]
    rw [h00, h01, h10, h11]
    norm_num [check_cutoff, cutPot, pot_vdw]
  · rw [calc_force, if_neg (by simp), zero_add, nonbondForce]
    rw [Finset.sum_range_succ, Finset.sum_range_succ, Finset.sum_range_zero, zero_add]
    have t11 : tempXY ⟨2, 1, 1, 1, 1, 1⟩ posPair10 box10
        (fun q => q == ((0:ℕ), (1:ℕ))) (fun _ => 0) 0 (1, 1) = 0 := by
      rw [tempXY, if_neg]
      exact not_not_intro (by rw [h11, zero_mul])
    have t01 : tempXY ⟨2, 1, 1, 1, 1, 1⟩ posPair10 box10
        (fun q => q == ((0:ℕ), (1:ℕ))) (fun _ => 0) 0 (0, 1) = -(93 / 256) := by
      rw [tempXY, if_pos]
      · rw [h01, hd0]
        norm_num [check_cutoff, cutFrc, force_vdw]
      · rw [h01]
        norm_num [check_cutoff]
    rw [t01, t11, add_zero]

/-- C5 (evaluation at the failing input): the virial tensor accumulated as
`temp_xy[i] * pair_dist[i] * pair_dist[j]` (lines 217-220) is NOT symmetric:
for a single pair with minimum-image displacement (1, -1) at squared
distance 2 (`rc = 2`, `sigma = eps = 1`, `vdw_coeff = 1`), entry (0,1) is
`483/512` while entry (1,0) is `-483/512`. -/
theorem virial_asymmetric_eval :
    (calc_energy_forces ⟨2, 1, 1, 1, 1, 1⟩ 2 posPair91 box10
      ⟨fun q => q == ((0:ℕ), (1:ℕ)), [], [], [], []⟩ (fun _ => 1)
      (fun _ => true)).2.2 0 1 = 483 / 512 ∧
    (calc_energy_forces ⟨2, 1, 1, 1, 1, 1⟩ 2 posPair91 box10
      ⟨fun q => q == ((0:ℕ), (1:ℕ)), [], [], [], []⟩ (fun _ => 1)
      (fun _ => true)).2.2 1 0 = -(483 / 512) ∧
    (calc_energy_forces ⟨2, 1, 1, 1, 1, 1⟩ 2 posPair91 box10
      ⟨fun q => q == ((0:ℕ), (1:ℕ)), [], [], [], []⟩ (fun _ => 1)
      (fun _ => true)).2.2 0 1 ≠
    (calc_energy_forces ⟨2, 1, 1, 1, 1, 1⟩ 2 posPair91 box10
      ⟨fun q => q == ((0:ℕ), (1:ℕ)), [], [], [], []⟩ (fun _ => 1)
      (fun _ => true)).2.2 1 0 := by
  have hd0 : pairDist posPair91 box10 (fun q => q == ((0:ℕ), (1:ℕ))) 0 (0, 1) = 1 := by
    rw [pairDist, if_pos (by decide)]
    rw [show posPair91 ((0:ℕ), (1:ℕ)).1 0 - posPair91 ((0:ℕ), (1:ℕ)).2 0 = -9 by
      norm_num [posPair91]]
    rw [minImage, show round ((-9:ℝ) / box10 0) = -1 by
      rw [round_eq, box10]
      rw [show (-9:ℝ) / 10 + 1 / 2 = -(2/5) by norm_num]
      rw [Int.floor_eq_iff]
      norm_num]
    norm_num [box10]
  have hd1 : pairDist posPair91 box10 (fun q => q == ((0:ℕ), (1:ℕ))) 1 (0, 1) = -1 := by
    rw [pairDist, if_pos (by decide)]
    rw [show posPair91 ((0:ℕ), (1:ℕ)).1 1 - posPair91 ((0:ℕ), (1:ℕ)).2 1 = -1 by
      norm_num [posPair91]]
    exact minImage_small (by norm_num [box10]) (by norm_num [box10]) (by norm_num [box10])
  have h01 : pairR2 posPair91 box10 (fun q => q == ((0:ℕ), (1:ℕ))) (0, 1) = 2 := by
    rw [pairR2, Fin.sum_univ_two, hd0, hd1]
    norm_num
  have h00 : pairR2 posPair91 box10 (fun q => q == ((0:ℕ), (1:ℕ))) (0, 0) = 0 :=
    pairR2_off_mask _ _ _ _ (by decide)
  have h10 : pairR2 posPair91 box10 (fun q => q == ((0:ℕ), (1:ℕ))) (1, 0) = 0 :=
    pairR2_off_mask _ _ _ _ (by decide)
  have h11 : pairR2 posPair91 box10 (fun q => q == ((0:ℕ), (1:ℕ))) (1, 1) = 0 :=
    pairR2_off_mask _ _ _ _ (by decide)
  have toff : ∀ (i : Fin 2) (q : ℕ × ℕ),
      pairR2 posPair91 box10 (fun q' => q' == ((0:ℕ), (1:ℕ))) q = 0 →
      tempXY ⟨2, 1, 1, 1, 1, 1⟩ posPair91 box10
        (fun q' => q' == ((0:ℕ), (1:ℕ))) (fun _ => 1) i q = 0 := by
    intro i q hq
    rw [tempXY, if_neg]
    exact not_not_intro (by rw [hq, zero_mul])
  have t0 : tempXY ⟨2, 1, 1, 1, 1, 1⟩ posPair91 box10
      (fun q => q == ((0:ℕ), (1:ℕ))) (fun _ => 1) 0 (0, 1) = -(483 / 512) := by
    rw [tempXY, if_pos]
    · rw [h01, hd0]
      norm_num [check_cutoff, cutFrc, force_vdw]
    · rw [h01]
      norm_num [check_cutoff]
  have t1 : tempXY ⟨2, 1, 1, 1, 1, 1⟩ posPair91 box10
      (fun q => q == ((0:ℕ), (1:ℕ))) (fun _ => 1) 1 (0, 1) = 483 / 512 := by
    rw [tempXY, if_pos]
    · rw [h01, hd1]
      norm_num [check_cutoff, cutFrc, force_vdw]
    · rw [h01]
      norm_num [check_cutoff]
  have hv01 : (calc_energy_forces ⟨2, 1, 1, 1, 1, 1⟩ 2 posPair91 box10
      ⟨fun q => q == ((0:ℕ), (1:ℕ)), [], [], [], []⟩ (fun _ => 1)
      (fun _ => true)).2.2 0 1 = 483 / 512 := by
    rw [calc_virial, virialTensor_eq_sum_ite, sum_grid2]
    rw [if_pos rfl, if_pos rfl, if_pos rfl, if_pos rfl]
    rw [toff 0 (0, 0) h00, toff 0 (1, 0) h10, toff 0 (1, 1) h11, t0, hd0, hd1]
    ring
  have hv10 : (calc_energy_forces ⟨2, 1, 1, 1, 1, 1⟩ 2 posPair91 box10
      ⟨fun q => q == ((0:ℕ), (1:ℕ)), [], [], [], []⟩ (fun _ => 1)
      (fun _ => true)).2.2 1 0 = -(483 / 512) := by
    rw [calc_virial, virialTensor_eq_sum_ite, sum_grid2]
    rw [if_pos rfl, if_pos rfl, if_pos rfl, if_pos rfl]
    rw [toff 1 (0, 0) h00, toff 1 (1, 0) h10, toff 1 (1, 1) h11, t1, hd0, hd1]
    ring
  refine ⟨hv01, hv10, ?_⟩
  rw [hv01, hv10]
  norm_num

/-- C9: with an empty bond list, `calc_energy_forces` skips the bonded and
the angular block (even when angle triplets are present), so energy and
forces are exactly the non-bonded contributions; and with bonds but no angle
triplets the angular contribution is exactly zero, leaving bond plus
non-bonded terms. -/
theorem no_bond_no_angle_blocks (P : Param) (n : ℕ) (pos : ℕ → Fin 2 → ℝ)
    (L : Fin 2 → ℝ) (T : Topo) (vdwCoeff : ℕ × ℕ → ℝ) (virialIdx : ℕ × ℕ → Bool) :
    (T.bonds = [] →
      (calc_energy_forces P n pos L T vdwCoeff virialIdx).1
        = nonbondPot P n pos L T.posIdx vdwCoeff ∧
      ∀ a i, (calc_energy_forces P n pos L T vdwCoeff virialIdx).2.1 a i
        = nonbondForce P n pos L T.posIdx vdwCoeff i a) ∧
    (T.angles = [] →
      (calc_energy_forces P n pos L T vdwCoeff virialIdx).1
        = (if T.bonds ≠ [] then bondPotSum P pos L T.posIdx T.bonds else 0)
            + nonbondPot P n pos L T.posIdx vdwCoeff ∧
      ∀ a i, (calc_energy_forces P n pos L T vdwCoeff virialIdx).2.1 a i
        = (if T.bonds ≠ [] then bondForce P n pos L T.posIdx T.bonds T.frcs i a else 0)
            + nonbondForce P n pos L T.posIdx vdwCoeff i a) := by
  constructor
  · intro hb
    constructor
    · rw [calc_energy, if_neg (by simp [hb]), zero_add]
    · intro a i
      rw [calc_force, if_neg (by simp [hb]), zero_add]
  · intro ha
    have hz : T.angles.zip T.angleBonds = [] := by rw [ha]; rfl
    have hap : anglePotSum P pos L (T.angles.zip T.angleBonds) = 0 := by
      rw [hz, anglePotSum]
      simp
    have haf : ∀ (i : Fin 2) (a : ℕ),
        bondAngleForce P n pos L T.posIdx T.bonds T.frcs (T.angles.zip T.angleBonds) i a
          = bondForce P n pos L T.posIdx T.bonds T.frcs i a := by
      intro i a
      rw [hz]
      simp [bondAngleForce, npAddAtL, lastHit]
    constructor
    · rw [calc_energy, hap]
      by_cases hb : T.bonds = []
      · simp [hb]
      · rw [if_pos hb, if_pos hb, add_zero]
    · intro a i
      rw [calc_force]
      by_cases hb : T.bonds = []
      · simp [hb]
      · rw [if_pos hb, if_pos hb, haf]

/-- Witness for C9 at an empty configuration, discharging both
hypotheses. -/
theorem no_bond_no_angle_blocks_witness :
    (calc_energy_forces ⟨0, 0, 0, 0, 0, 0⟩ 0 (fun _ _ => 0) (fun _ => 1)
      ⟨fun _ => false, [], [], [], []⟩ (fun _ => 0) (fun _ => false)).1
      = nonbondPot ⟨0, 0, 0, 0, 0, 0⟩ 0 (fun _ _ => 0) (fun _ => 1)
          (fun _ => false) (fun _ => 0) ∧
    (calc_energy_forces ⟨0, 0, 0, 0, 0, 0⟩ 0 (fun _ _ => 0) (fun _ => 1)
      ⟨fun _ => false, [], [], [], []⟩ (fun _ => 0) (fun _ => false)).1
      = (if ([] : List (ℕ × ℕ)) ≠ [] then
          bondPotSum ⟨0, 0, 0, 0, 0, 0⟩ (fun _ _ => 0) (fun _ => 1)
            (fun _ => false) []
        else 0)
          + nonbondPot ⟨0, 0, 0, 0, 0, 0⟩ 0 (fun _ _ => 0) (fun _ => 1)
              (fun _ => false) (fun _ => 0) :=
  ⟨((no_bond_no_angle_blocks ⟨0, 0, 0, 0, 0, 0⟩ 0 (fun _ _ => 0) (fun _ => 1)
      ⟨fun _ => false, [], [], [], []⟩ (fun _ => 0) (fun _ => false)).1 rfl).1,
   ((no_bond_no_angle_blocks ⟨0, 0, 0, 0, 0, 0⟩ 0 (fun _ _ => 0) (fun _ => 1)
      ⟨fun _ => false, [], [], [], []⟩ (fun _ => 0) (fun _ => false)).2 rfl).1⟩

/-- Helper: when the scatter indices are pairwise distinct, the last-write
increment of a fancy-indexed `+=` coincides with the summed increments. -/
theorem lastHit_eq_sum {α : Type} [DecidableEq α] (ps : List (α × ℝ))
    (h : (ps.map Prod.fst).Nodup) (x : α) :
    lastHit ps x = (ps.map (fun q => if q.1 = x then q.2 else 0)).sum := by
  induction ps with
  | nil => rfl
  | cons p ps ih =>
    rw [List.map_cons, List.nodup_cons] at h
    rw [List.map_cons, List.sum_cons]
    by_cases hx : p.1 = x
    · have hfe : ps.filter (fun q => q.1 = x) = [] := by
        rw [List.filter_eq_nil_iff]
        intro q hq
        simp only [decide_eq_true_eq]
        intro hqx
        exact h.1 (by rw [hx, ← hqx]; exact List.mem_map_of_mem Prod.fst hq)
      have hzero : (ps.map (fun q => if q.1 = x then q.2 else 0)).sum = 0 := by
        apply List.sum_eq_zero
        intro y hy
        obtain ⟨q, hq, rfl⟩ := List.mem_map.mp hy
        rw [if_neg]
        intro hqx
        exact h.1 (by rw [hx, ← hqx]; exact List.mem_map_of_mem Prod.fst hq)
      rw [lastHit, List.filter_cons, if_pos (by simpa using hx), hfe, if_pos hx,
        hzero, add_zero]
      rfl
    · rw [lastHit, List.filter_cons, if_neg (by simpa using hx), if_neg hx, zero_add]
      exact ih h.2

/-- Helper: `npAddAtL` as base plus summed increments, for distinct
indices. -/
theorem npAddAtL_eq_add_sum {α : Type} [DecidableEq α] (a : α → ℝ)
    (ps : List (α × ℝ)) (h : (ps.map Prod.fst).Nodup) (x : α) :
    npAddAtL a ps x = a x + (ps.map (fun q => if q.1 = x then q.2 else 0)).sum := by
  rw [npAddAtL, lastHit_eq_sum ps h x]

/-- Helper: a mapped list sum distributes over pointwise addition. -/
theorem list_sum_map_add {σ : Type} (l : List σ) (f g : σ → ℝ) :
    (l.map (fun s => f s + g s)).sum = (l.map f).sum + (l.map g).sum := by
  induction l with
  | nil => simp
  | cons s l ih =>
    simp only [List.map_cons, List.sum_cons, ih]
    ring

/-- Helper: a mapped list sum commutes with division by a constant. -/
theorem list_sum_map_div {σ : Type} (l : List σ) (f : σ → ℝ) (c : ℝ) :
    (l.map (fun s => f s / c)).sum = (l.map f).sum / c := by
  induction l with
  | nil => simp
  | cons s l ih =>
    simp only [List.map_cons, List.sum_cons, ih]
    ring

/-- Helper: a mapped list sum commutes with a constant left factor. -/
theorem list_sum_map_mul_left {σ : Type} (l : List σ) (f : σ → ℝ) (c : ℝ) :
    (l.map (fun s => c * f s)).sum = c * (l.map f).sum := by
  induction l with
  | nil => simp
  | cons s l ih =>
    simp only [List.map_cons, List.sum_cons, ih]
    ring

/-- Helper: a finite sum of mapped list sums can be reordered. -/
theorem sum_list_swap {α σ : Type} (F : Finset α) (l : List σ) (g : σ → α → ℝ) :
    ∑ p ∈ F, (l.map (fun s => g s p)).sum
      = (l.map (fun s => ∑ p ∈ F, g s p)).sum := by
  induction l with
  | nil => simp
  | cons s l ih =>
    simp only [List.map_cons, List.sum_cons, Finset.sum_add_distrib, ih]

/-- Helper: a mapped sum over a list in which exactly one element satisfies
`q`, the others contributing zero, equals the value at that element. -/
theorem sum_map_of_countP_one {σ : Type} (q : σ → Bool) (g : σ → ℝ) (v : ℝ)
    (ss : List σ) (h1 : ss.countP q = 1)
    (h0 : ∀ s ∈ ss, q s = false → g s = 0)
    (hv : ∀ s ∈ ss, q s = true → g s = v) :
    (ss.map g).sum = v := by
  induction ss with
  | nil => simp at h1
  | cons s ss ih =>
    rw [List.countP_cons] at h1
    rw [List.map_cons, List.sum_cons]
    by_cases hs : q s = true
    · rw [if_pos hs] at h1
      have hz : ss.countP q = 0 := by omega
      have hrest : (ss.map g).sum = 0 := by
        apply List.sum_eq_zero
        intro y hy
        obtain ⟨t, ht, rfl⟩ := List.mem_map.mp hy
        have hnt := List.countP_eq_zero.mp hz t ht
        exact h0 t (List.mem_cons_of_mem _ ht) (by revert hnt; cases q t <;> simp)
      rw [hv s (List.mem_cons_self s ss) hs, hrest, add_zero]
    · rw [if_neg hs] at h1
      have hf : q s = false := by revert hs; cases q s <;> simp
      rw [h0 s (List.mem_cons_self s ss) hf, zero_add]
      exact ih (by omega) (fun t ht hq => h0 t (List.mem_cons_of_mem _ ht) hq)
        (fun t ht hq => hv t (List.mem_cons_of_mem _ ht) hq)

/-- Helper: a mapped sum over a list in which no element satisfies `q`, the
others contributing zero, vanishes. -/
theorem sum_map_of_countP_zero {σ : Type} (q : σ → Bool) (g : σ → ℝ)
    (ss : List σ) (h1 : ss.countP q = 0)
    (h0 : ∀ s ∈ ss, q s = false → g s = 0) :
    (ss.map g).sum = 0 := by
  apply List.sum_eq_zero
  intro y hy
  obtain ⟨t, ht, rfl⟩ := List.mem_map.mp hy
  have hnt := List.countP_eq_zero.mp h1 t ht
  exact h0 t ht (by revert hnt; cases q t <;> simp)

/-- Helper: a sum over a list that is a permutation of the concatenation of
per-part lists splits into the per-part sums. -/
theorem sum_over_parts {β σ : Type} (F : List β) (parts : List σ)
    (pick : σ → List β) (hperm : F.Perm ((parts.map pick).flatten)) (f : β → ℝ) :
    (F.map f).sum = (parts.map (fun s => ((pick s).map f).sum)).sum := by
  rw [List.Perm.sum_eq (hperm.map f), List.map_flatten, List.sum_flatten,
    List.map_map, List.map_map]
  rfl

/-- Helper: summing a matrix-position indicator over one row range. -/
theorem sum_indicator_pair (n : ℕ) (a : ℕ) (w : (ℕ × ℕ) × ℝ) :
    (∑ b ∈ Finset.range n, if w.1 = (a, b) then w.2 else 0)
      = if w.1.1 = a ∧ w.1.2 < n then w.2 else 0 := by
  by_cases ha : w.1.1 = a
  · have hcond : ∀ b, (w.1 = (a, b)) = (w.1.2 = b) := by
      intro b
      apply propext
      constructor
      · intro h
        rw [h]
      · intro h
        rw [Prod.ext_iff]
        exact ⟨ha, h⟩
    simp_rw [hcond]
    rw [Finset.sum_ite_eq (Finset.range n) w.1.2 (fun _ => w.2)]
    simp [ha, Finset.mem_range]
  · rw [if_neg (fun hc => ha hc.1)]
    apply Finset.sum_eq_zero
    intro b _
    rw [if_neg]
    intro h
    exact ha (by rw [h])

/-- Helper: a slice's mask can only select positions of the full mask. -/
theorem mask_le_full {mF : ℕ × ℕ → Bool} {ss : List Topo}
    (hcount : ∀ p, ss.countP (fun s => s.posIdx p) = if mF p then 1 else 0)
    {s : Topo} (hs : s ∈ ss) {p : ℕ × ℕ} (hp : s.posIdx p = true) :
    mF p = true := by
  by_contra h
  have hf : mF p = false := by revert h; cases mF p <;> simp
  have hc := hcount p
  rw [hf] at hc
  simp only [Bool.false_eq_true, if_false] at hc
  exact absurd hp (by simpa using List.countP_eq_zero.mp hc s hs)

/-- Helper: the pair displacement only depends on the mask through
membership. -/
theorem pairDist_congr (pos : ℕ → Fin 2 → ℝ) (L : Fin 2 → ℝ)
    (m1 m2 : ℕ × ℕ → Bool) (i : Fin 2) (p : ℕ × ℕ)
    (h1 : m1 p = true) (h2 : m2 p = true) :
    pairDist pos L m1 i p = pairDist pos L m2 i p := by
  rw [pairDist, pairDist, if_pos h1, if_pos h2]

/-- Helper: the pair displacement vanishes off the mask. -/
theorem pairDist_off (pos : ℕ → Fin 2 → ℝ) (L : Fin 2 → ℝ)
    (m : ℕ × ℕ → Bool) (i : Fin 2) (p : ℕ × ℕ) (h : m p = false) :
    pairDist pos L m i p = 0 := by
  rw [pairDist, if_neg (by simp [h])]

/-- Helper: the squared pair distance only depends on the mask through
membership. -/
theorem pairR2_congr (pos : ℕ → Fin 2 → ℝ) (L : Fin 2 → ℝ)
    (m1 m2 : ℕ × ℕ → Bool) (p : ℕ × ℕ)
    (h1 : m1 p = true) (h2 : m2 p = true) :
    pairR2 pos L m1 p = pairR2 pos L m2 p := by
  rw [pairR2, pairR2]
  exact Finset.sum_congr rfl (fun i _ => by
    rw [pairDist_congr pos L m1 m2 i p h1 h2])

/-- Helper: any per-pair quantity computed from the displacement vector and
vanishing on the zero vector splits across a disjoint covering family of
masks: the slice owning the pair contributes the full value, every other
slice contributes zero. -/
theorem pair_term_additive (pos : ℕ → Fin 2 → ℝ) (L : Fin 2 → ℝ)
    (mF : ℕ × ℕ → Bool) (ss : List Topo)
    (hcount : ∀ p, ss.countP (fun s => s.posIdx p) = if mF p then 1 else 0)
    (G : (Fin 2 → ℝ) → ℕ × ℕ → ℝ) (hG0 : ∀ p, G (fun _ => 0) p = 0) (p : ℕ × ℕ) :
    G (fun i => pairDist pos L mF i p) p
      = (ss.map (fun s => G (fun i => pairDist pos L s.posIdx i p) p)).sum := by
  by_cases hF : mF p = true
  · symm
    apply sum_map_of_countP_one (fun s => s.posIdx p)
      (fun s => G (fun i => pairDist pos L s.posIdx i p) p)
      (G (fun i => pairDist pos L mF i p) p) ss (by rw [hcount p, if_pos hF])
    · intro s _ hfalse
      rw [show (fun i => pairDist pos L s.posIdx i p) = (fun _ : Fin 2 => (0:ℝ)) from
        funext (fun i => pairDist_off pos L s.posIdx i p hfalse)]
      exact hG0 p
    · intro s _ htrue
      congr 1
      funext i
      exact pairDist_congr pos L s.posIdx mF i p htrue hF
  · have hFf : mF p = false := by revert hF; cases mF p <;> simp
    rw [show (fun i => pairDist pos L mF i p) = (fun _ : Fin 2 => (0:ℝ)) from
      funext (fun i => pairDist_off pos L mF i p hFf), hG0]
    symm
    apply sum_map_of_countP_zero (fun s => s.posIdx p) _ ss
      (by rw [hcount p, hFf]; simp)
    intro s _ hfalse
    rw [show (fun i => pairDist pos L s.posIdx i p) = (fun _ : Fin 2 => (0:ℝ)) from
      funext (fun i => pairDist_off pos L s.posIdx i p hfalse)]
    exact hG0 p

/-- Helper: the non-bonded energy as a sum of `nbPotTerm` over the grid. -/
theorem nonbondPot_eq_sum_term (P : Param) (n : ℕ) (pos : ℕ → Fin 2 → ℝ)
    (L : Fin 2 → ℝ) (m : ℕ × ℕ → Bool) (vdwCoeff : ℕ × ℕ → ℝ) :
    nonbondPot P n pos L m vdwCoeff
      = (∑ p ∈ Finset.range n ×ˢ Finset.range n, nbPotTerm P pos L m vdwCoeff p) / 2 := by
  rw [nonbondPot_eq_sum_ite]
  rfl

/-- Helper: the virial tensor as a sum of `virTerm` over the grid. -/
theorem virialTensor_eq_sum_term (P : Param) (n : ℕ) (pos : ℕ → Fin 2 → ℝ)
    (L : Fin 2 → ℝ) (m : ℕ × ℕ → Bool) (vdwCoeff : ℕ × ℕ → ℝ)
    (virialIdx : ℕ × ℕ → Bool) (i j : Fin 2) :
    virialTensor P n pos L m vdwCoeff virialIdx i j
      = ∑ p ∈ Finset.range n ×ˢ Finset.range n,
          virTerm P pos L m vdwCoeff virialIdx i j p := by
  rw [virialTensor_eq_sum_ite]
  rfl

/-- Helper: the non-bonded energy summand depends on the mask only through
the displacement vector. -/
theorem nbPotTerm_eq_G (P : Param) (pos : ℕ → Fin 2 → ℝ) (L : Fin 2 → ℝ)
    (vdwCoeff : ℕ × ℕ → ℝ) (m : ℕ × ℕ → Bool) (p : ℕ × ℕ) :
    nbPotTerm P pos L m vdwCoeff p
      = nbPotG P vdwCoeff (fun i => pairDist pos L m i p) p := by
  simp only [nbPotTerm, nbPotG, pairR2]

/-- Helper: the non-bonded force matrix entry depends on the mask only
through the displacement vector. -/
theorem tempXY_eq_G (P : Param) (pos : ℕ → Fin 2 → ℝ) (L : Fin 2 → ℝ)
    (vdwCoeff : ℕ × ℕ → ℝ) (m : ℕ × ℕ → Bool) (i : Fin 2) (p : ℕ × ℕ) :
    tempXY P pos L m vdwCoeff i p
      = nbFrcG P vdwCoeff i (fun k => pairDist pos L m k p) p := by
  simp only [tempXY, nbFrcG, pairR2]

/-- Helper: the virial summand depends on the mask only through the
displacement vector. -/
theorem virTerm_eq_G (P : Param) (pos : ℕ → Fin 2 → ℝ) (L : Fin 2 → ℝ)
    (vdwCoeff : ℕ × ℕ → ℝ) (virialIdx : ℕ × ℕ → Bool) (m : ℕ × ℕ → Bool)
    (i j : Fin 2) (p : ℕ × ℕ) :
    virTerm P pos L m vdwCoeff virialIdx i j p
      = virG P vdwCoeff virialIdx i j (fun k => pairDist pos L m k p) p := by
  simp only [virTerm, virG, tempXY, nbFrcG, pairR2]

/-- Helper: the non-bonded energy summand vanishes on the zero displacement
vector. -/
theorem nbPotG_zero (P : Param) (vdwCoeff : ℕ × ℕ → ℝ) (q : ℕ × ℕ) :
    nbPotG P vdwCoeff (fun _ => 0) q = 0 := by
  norm_num [nbPotG, Fin.sum_univ_two]

/-- Helper: the non-bonded force entry vanishes on the zero displacement
vector. -/
theorem nbFrcG_zero (P : Param) (vdwCoeff : ℕ × ℕ → ℝ) (i : Fin 2) (q : ℕ × ℕ) :
    nbFrcG P vdwCoeff i (fun _ => 0) q = 0 := by
  norm_num [nbFrcG, Fin.sum_univ_two]

/-- Helper: the virial summand vanishes on the zero displacement vector. -/
theorem virG_zero (P : Param) (vdwCoeff : ℕ × ℕ → ℝ) (virialIdx : ℕ × ℕ → Bool)
    (i j : Fin 2) (q : ℕ × ℕ) :
    virG P vdwCoeff virialIdx i j (fun _ => 0) q = 0 := by
  rw [virG, nbFrcG_zero]
  simp

/-- Helper: one non-bonded energy summand splits across the slices of a
disjoint covering mask family. -/
theorem nbPotTerm_additive (P : Param) (pos : ℕ → Fin 2 → ℝ) (L : Fin 2 → ℝ)
    (vdwCoeff : ℕ × ℕ → ℝ) (mF : ℕ × ℕ → Bool) (ss : List Topo)
    (hcount : ∀ p, ss.countP (fun s => s.posIdx p) = if mF p then 1 else 0)
    (p : ℕ × ℕ) :
    nbPotTerm P pos L mF vdwCoeff p
      = (ss.map (fun s => nbPotTerm P pos L s.posIdx vdwCoeff p)).sum := by
  rw [nbPotTerm_eq_G,
    pair_term_additive pos L mF ss hcount (nbPotG P vdwCoeff) (nbPotG_zero P vdwCoeff) p]
  exact congrArg List.sum
    (List.map_congr_left (fun s _ => (nbPotTerm_eq_G P pos L vdwCoeff s.posIdx p).symm))


/-- Helper: one non-bonded force matrix entry splits across the slices of a
disjoint covering mask family. -/
theorem tempXY_additive (P : Param) (pos : ℕ → Fin 2 → ℝ) (L : Fin 2 → ℝ)
    (vdwCoeff : ℕ × ℕ → ℝ) (mF : ℕ × ℕ → Bool) (ss : List Topo)
    (hcount : ∀ p, ss.countP (fun s => s.posIdx p) = if mF p then 1 else 0)
    (i : Fin 2) (p : ℕ × ℕ) :
    tempXY P pos L mF vdwCoeff i p
      = (ss.map (fun s => tempXY P pos L s.posIdx vdwCoeff i p)).sum := by
  rw [tempXY_eq_G,
    pair_term_additive pos L mF ss hcount (nbFrcG P vdwCoeff i) (nbFrcG_zero P vdwCoeff i) p]
  exact congrArg List.sum
    (List.map_congr_left (fun s _ => (tempXY_eq_G P pos L vdwCoeff s.posIdx i p).symm))


/-- Helper: one virial summand splits across the slices of a disjoint
covering mask family. -/
theorem virTerm_additive (P : Param) (pos : ℕ → Fin 2 → ℝ) (L : Fin 2 → ℝ)
    (vdwCoeff : ℕ × ℕ → ℝ) (virialIdx : ℕ × ℕ → Bool) (mF : ℕ × ℕ → Bool)
    (ss : List Topo)
    (hcount : ∀ p, ss.countP (fun s => s.posIdx p) = if mF p then 1 else 0)
    (i j : Fin 2) (p : ℕ × ℕ) :
    virTerm P pos L mF vdwCoeff virialIdx i j p
      = (ss.map (fun s => virTerm P pos L s.posIdx vdwCoeff virialIdx i j p)).sum := by
  rw [virTerm_eq_G,
    pair_term_additive pos L mF ss hcount (virG P vdwCoeff virialIdx i j)
      (virG_zero P vdwCoeff virialIdx i j) p]
  exact congrArg List.sum
    (List.map_congr_left (fun s _ => (virTerm_eq_G P pos L vdwCoeff virialIdx s.posIdx i j p).symm))


/-- Helper: the non-bonded energy splits across the slices of a disjoint
covering mask family. -/
theorem nonbondPot_additive (P : Param) (n : ℕ) (pos : ℕ → Fin 2 → ℝ)
    (L : Fin 2 → ℝ) (vdwCoeff : ℕ × ℕ → ℝ) (mF : ℕ × ℕ → Bool) (ss : List Topo)
    (hcount : ∀ p, ss.countP (fun s => s.posIdx p) = if mF p then 1 else 0) :
    nonbondPot P n pos L mF vdwCoeff
      = (ss.map (fun s => nonbondPot P n pos L s.posIdx vdwCoeff)).sum := by
  rw [nonbondPot_eq_sum_term]
  rw [Finset.sum_congr rfl
    (fun p _ => nbPotTerm_additive P pos L vdwCoeff mF ss hcount p)]
  rw [sum_list_swap]
  rw [← list_sum_map_div]
  congr 1
  exact List.map_congr_left
    (fun s _ => (nonbondPot_eq_sum_term P n pos L s.posIdx vdwCoeff).symm)

/-- Helper: the non-bonded force splits across the slices of a disjoint
covering mask family. -/
theorem nonbondForce_additive (P : Param) (n : ℕ) (pos : ℕ → Fin 2 → ℝ)
    (L : Fin 2 → ℝ) (vdwCoeff : ℕ × ℕ → ℝ) (mF : ℕ × ℕ → Bool) (ss : List Topo)
    (hcount : ∀ p, ss.countP (fun s => s.posIdx p) = if mF p then 1 else 0)
    (i : Fin 2) (a : ℕ) :
    nonbondForce P n pos L mF vdwCoeff i a
      = (ss.map (fun s => nonbondForce P n pos L s.posIdx vdwCoeff i a)).sum := by
  rw [nonbondForce]
  rw [Finset.sum_congr rfl
    (fun b _ => tempXY_additive P pos L vdwCoeff mF ss hcount i (b, a))]
  rw [sum_list_swap]
  congr 1

/-- Helper: the virial tensor splits across the slices of a disjoint
covering mask family. -/
theorem virialTensor_additive (P : Param) (n : ℕ) (pos : ℕ → Fin 2 → ℝ)
    (L : Fin 2 → ℝ) (vdwCoeff : ℕ × ℕ → ℝ) (virialIdx : ℕ × ℕ → Bool)
    (mF : ℕ × ℕ → Bool) (ss : List Topo)
    (hcount : ∀ p, ss.countP (fun s => s.posIdx p) = if mF p then 1 else 0)
    (i j : Fin 2) :
    virialTensor P n pos L mF vdwCoeff virialIdx i j
      = (ss.map (fun s => virialTensor P n pos L s.posIdx vdwCoeff virialIdx i j)).sum := by
  rw [virialTensor_eq_sum_term]
  rw [Finset.sum_congr rfl
    (fun p _ => virTerm_additive P pos L vdwCoeff virialIdx mF ss hcount i j p)]
  rw [sum_list_swap]
  congr 1
  exact List.map_congr_left
    (fun s _ => (virialTensor_eq_sum_term P n pos L s.posIdx vdwCoeff virialIdx i j).symm)

/-- Helper: the scattered bond force value depends on the mask only through
membership of the bonded pair. -/
theorem bondVal_congr (P : Param) (pos : ℕ → Fin 2 → ℝ) (L : Fin 2 → ℝ)
    (m1 m2 : ℕ × ℕ → Bool) (i : Fin 2) (bp : ℕ × ℕ)
    (h1 : m1 bp = true) (h2 : m2 bp = true) :
    bondVal P pos L m1 i bp = bondVal P pos L m2 i bp := by
  rw [bondVal, bondVal, pairR2_congr pos L m1 m2 bp h1 h2,
    pairDist_congr pos L m1 m2 i bp h1 h2]

/-- Helper: the bonded energy splits across slices when the bond lists are
distributed over them and each slice's bonds lie in its own mask. -/
theorem bondPotSum_additive (P : Param) (pos : ℕ → Fin 2 → ℝ) (L : Fin 2 → ℝ)
    (mF : ℕ × ℕ → Bool) (ss : List Topo)
    (hcount : ∀ p, ss.countP (fun s => s.posIdx p) = if mF p then 1 else 0)
    (bondsF : List (ℕ × ℕ))
    (hperm : bondsF.Perm ((ss.map Topo.bonds).flatten))
    (hsub : ∀ s ∈ ss, ∀ bp ∈ s.bonds, s.posIdx bp = true) :
    bondPotSum P pos L mF bondsF
      = (ss.map (fun s => bondPotSum P pos L s.posIdx s.bonds)).sum := by
  rw [bondPotSum,
    sum_over_parts bondsF ss Topo.bonds hperm
      (fun bp => pot_harmonic (Real.sqrt (pairR2 pos L mF bp)) P.bond_r0 P.bond_k0),
    ← list_sum_map_mul_left]
  exact congrArg List.sum (List.map_congr_left (fun s hs => by
    rw [bondPotSum]
    congr 1
    exact congrArg List.sum (List.map_congr_left (fun bp hbp => by
      rw [pairR2_congr pos L mF s.posIdx bp
        (mask_le_full hcount hs (hsub s hs bp hbp)) (hsub s hs bp hbp)]))))

/-- Helper: the bonded force of `calc_energy_forces` (scatter into the
`n x n` matrix, then row sums) as a sum over the zipped
`bond_indices`/`frc_indices` list, valid when `frc_indices` is
duplicate-free. -/
theorem bondForce_eq_sum (P : Param) (n : ℕ) (pos : ℕ → Fin 2 → ℝ)
    (L : Fin 2 → ℝ) (m : ℕ × ℕ → Bool) (bonds frcs : List (ℕ × ℕ))
    (hlen : bonds.length = frcs.length) (hnd : frcs.Nodup) (i : Fin 2) (a : ℕ) :
    bondForce P n pos L m bonds frcs i a
      = ((bonds.zip frcs).map (fun q =>
          if q.2.1 = a ∧ q.2.2 < n then bondVal P pos L m i q.1 else 0)).sum := by
  have hkeys : (((bonds.zip frcs).map
      (fun q => (q.2, bondVal P pos L m i q.1))).map Prod.fst).Nodup := by
    rw [List.map_map]
    rw [show (Prod.fst ∘ fun q : (ℕ × ℕ) × (ℕ × ℕ) => (q.2, bondVal P pos L m i q.1))
        = Prod.snd from rfl]
    rw [List.map_snd_zip _ _ (le_of_eq hlen.symm)]
    exact hnd
  rw [bondForce]
  have hexp : ∀ b : ℕ, tempFrc P pos L m bonds frcs i (a, b)
      = (((bonds.zip frcs).map (fun q => (q.2, bondVal P pos L m i q.1))).map
          (fun w => if w.1 = (a, b) then w.2 else 0)).sum := by
    intro b
    rw [tempFrc, npAddAtL_eq_add_sum _ _ hkeys, zero_add]
  rw [Finset.sum_congr rfl (fun b _ => hexp b), sum_list_swap]
  rw [List.map_map]
  exact congrArg List.sum (List.map_congr_left (fun q _ => sum_indicator_pair n a _))

/-- Helper: the bonded force splits across slices when the zipped
`bond_indices`/`frc_indices` lists are distributed over them. -/
theorem bondForce_additive (P : Param) (n : ℕ) (pos : ℕ → Fin 2 → ℝ)
    (L : Fin 2 → ℝ) (mF : ℕ × ℕ → Bool) (ss : List Topo)
    (hcount : ∀ p, ss.countP (fun s => s.posIdx p) = if mF p then 1 else 0)
    (bondsF frcsF : List (ℕ × ℕ))
    (hlenF : bondsF.length = frcsF.length) (hndF : frcsF.Nodup)
    (hperm : (bondsF.zip frcsF).Perm ((ss.map (fun s => s.bonds.zip s.frcs)).flatten))
    (hsub : ∀ s ∈ ss, ∀ bp ∈ s.bonds, s.posIdx bp = true)
    (hlenS : ∀ s ∈ ss, s.bonds.length = s.frcs.length)
    (hndS : ∀ s ∈ ss, s.frcs.Nodup) (i : Fin 2) (a : ℕ) :
    bondForce P n pos L mF bondsF frcsF i a
      = (ss.map (fun s => bondForce P n pos L s.posIdx s.bonds s.frcs i a)).sum := by
  rw [bondForce_eq_sum P n pos L mF bondsF frcsF hlenF hndF i a,
    sum_over_parts (bondsF.zip frcsF) ss (fun s => s.bonds.zip s.frcs) hperm
      (fun q => if q.2.1 = a ∧ q.2.2 < n then bondVal P pos L mF i q.1 else 0)]
  exact congrArg List.sum (List.map_congr_left (fun s hs => by
    rw [bondForce_eq_sum P n pos L s.posIdx s.bonds s.frcs (hlenS s hs) (hndS s hs) i a]
    exact congrArg List.sum (List.map_congr_left (fun q hq => by
      have hbp : q.1 ∈ s.bonds := (List.of_mem_zip hq).1
      rw [bondVal_congr P pos L mF s.posIdx i q.1
        (mask_le_full hcount hs (hsub s hs q.1 hbp)) (hsub s hs q.1 hbp)]))))

/-- Helper: the list sum of a four-part map splits into four sums. -/
theorem list_sum_map_add4 {σ : Type} (l : List σ) (f1 f2 f3 f4 : σ → ℝ) :
    (l.map (fun s => f1 s + f2 s + f3 s + f4 s)).sum
      = (l.map f1).sum + (l.map f2).sum + (l.map f3).sum + (l.map f4).sum := by
  induction l with
  | nil => simp
  | cons s l ih =>
    simp only [List.map_cons, List.sum_cons, ih]
    ring

/-- Helper: the angular energy splits across slices when the zipped angle
lists are distributed over them (the per-angle term uses `pos` directly and
is mask-independent). -/
theorem anglePotSum_additive (P : Param) (pos : ℕ → Fin 2 → ℝ) (L : Fin 2 → ℝ)
    (ss : List Topo) (zipAF : List AngleEntry)
    (hperm : zipAF.Perm ((ss.map (fun s => s.angles.zip s.angleBonds)).flatten)) :
    anglePotSum P pos L zipAF
      = (ss.map (fun s => anglePotSum P pos L (s.angles.zip s.angleBonds))).sum := by
  rw [anglePotSum,
    sum_over_parts zipAF ss (fun s => s.angles.zip s.angleBonds) hperm
      (fun e => cosThe pos L e + 1),
    ← list_sum_map_mul_left]
  rfl

/-- Helper: `bondAngleForce` (the bond scatter followed by the three angular
scatters) as explicit sums, valid when each scatter index list is
duplicate-free. -/
theorem bondAngleForce_eq_sum (P : Param) (n : ℕ) (pos : ℕ → Fin 2 → ℝ)
    (L : Fin 2 → ℝ) (m : ℕ × ℕ → Bool) (bonds frcs : List (ℕ × ℕ))
    (aps : List AngleEntry)
    (hnd1 : (aps.map (fun e => e.1.1)).Nodup)
    (hnd2 : (aps.map (fun e => e.1.2.1)).Nodup)
    (hnd3 : (aps.map (fun e => e.1.2.2)).Nodup) (i : Fin 2) (a : ℕ) :
    bondAngleForce P n pos L m bonds frcs aps i a
      = bondForce P n pos L m bonds frcs i a
        + (aps.map (fun e => if e.1.1 = a then frcAngleIJ P.angle_k0 pos L e i else 0)).sum
        + (aps.map (fun e => if e.1.2.1 = a then frcAngleK P.angle_k0 pos L e i else 0)).sum
        + (aps.map (fun e => if e.1.2.2 = a then frcAngleJK P.angle_k0 pos L e i else 0)).sum := by
  have hk1 : ((aps.map (fun e => (e.1.1, frcAngleIJ P.angle_k0 pos L e i))).map
      Prod.fst).Nodup := by
    rw [List.map_map]
    exact hnd1
  have hk2 : ((aps.map (fun e => (e.1.2.1, frcAngleK P.angle_k0 pos L e i))).map
      Prod.fst).Nodup := by
    rw [List.map_map]
    exact hnd2
  have hk3 : ((aps.map (fun e => (e.1.2.2, frcAngleJK P.angle_k0 pos L e i))).map
      Prod.fst).Nodup := by
    rw [List.map_map]
    exact hnd3
  rw [bondAngleForce, npAddAtL_eq_add_sum _ _ hk3, npAddAtL_eq_add_sum _ _ hk2,
    npAddAtL_eq_add_sum _ _ hk1, List.map_map, List.map_map, List.map_map]
  rfl

/-- Helper: the combined bond and angular force splits across slices. -/
theorem bondAngleForce_additive (P : Param) (n : ℕ) (pos : ℕ → Fin 2 → ℝ)
    (L : Fin 2 → ℝ) (mF : ℕ × ℕ → Bool) (ss : List Topo)
    (hcount : ∀ p, ss.countP (fun s => s.posIdx p) = if mF p then 1 else 0)
    (bondsF frcsF : List (ℕ × ℕ)) (zipAF : List AngleEntry)
    (hlenF : bondsF.length = frcsF.length) (hndF : frcsF.Nodup)
    (hpermB : (bondsF.zip frcsF).Perm
      ((ss.map (fun s => s.bonds.zip s.frcs)).flatten))
    (hpermA : zipAF.Perm ((ss.map (fun s => s.angles.zip s.angleBonds)).flatten))
    (hsub : ∀ s ∈ ss, ∀ bp ∈ s.bonds, s.posIdx bp = true)
    (hlenS : ∀ s ∈ ss, s.bonds.length = s.frcs.length)
    (hndS : ∀ s ∈ ss, s.frcs.Nodup)
    (hnd1F : (zipAF.map (fun e => e.1.1)).Nodup)
    (hnd2F : (zipAF.map (fun e => e.1.2.1)).Nodup)
    (hnd3F : (zipAF.map (fun e => e.1.2.2)).Nodup)
    (hnd1S : ∀ s ∈ ss, ((s.angles.zip s.angleBonds).map (fun e => e.1.1)).Nodup)
    (hnd2S : ∀ s ∈ ss, ((s.angles.zip s.angleBonds).map (fun e => e.1.2.1)).Nodup)
    (hnd3S : ∀ s ∈ ss, ((s.angles.zip s.angleBonds).map (fun e => e.1.2.2)).Nodup)
    (i : Fin 2) (a : ℕ) :
    bondAngleForce P n pos L mF bondsF frcsF zipAF i a
      = (ss.map (fun s => bondAngleForce P n pos L s.posIdx s.bonds s.frcs
          (s.angles.zip s.angleBonds) i a)).sum := by
  rw [bondAngleForce_eq_sum P n pos L mF bondsF frcsF zipAF hnd1F hnd2F hnd3F i a]
  rw [List.map_congr_left (fun s hs =>
    bondAngleForce_eq_sum P n pos L s.posIdx s.bonds s.frcs
      (s.angles.zip s.angleBonds) (hnd1S s hs) (hnd2S s hs) (hnd3S s hs) i a)]
  rw [list_sum_map_add4 ss
    (fun s => bondForce P n pos L s.posIdx s.bonds s.frcs i a)
    (fun s => ((s.angles.zip s.angleBonds).map
      (fun e => if e.1.1 = a then frcAngleIJ P.angle_k0 pos L e i else 0)).sum)
    (fun s => ((s.angles.zip s.angleBonds).map
      (fun e => if e.1.2.1 = a then frcAngleK P.angle_k0 pos L e i else 0)).sum)
    (fun s => ((s.angles.zip s.angleBonds).map
      (fun e => if e.1.2.2 = a then frcAngleJK P.angle_k0 pos L e i else 0)).sum)]
  rw [bondForce_additive P n pos L mF ss hcount bondsF frcsF hlenF hndF hpermB
    hsub hlenS hndS i a]
  rw [sum_over_parts zipAF ss (fun s => s.angles.zip s.angleBonds) hpermA
    (fun e => if e.1.1 = a then frcAngleIJ P.angle_k0 pos L e i else 0)]
  rw [sum_over_parts zipAF ss (fun s => s.angles.zip s.angleBonds) hpermA
    (fun e => if e.1.2.1 = a then frcAngleK P.angle_k0 pos L e i else 0)]
  rw [sum_over_parts zipAF ss (fun s => s.angles.zip s.angleBonds) hpermA
    (fun e => if e.1.2.2 = a then frcAngleJK P.angle_k0 pos L e i else 0)]

/-- Helper: for a slice that holds angles only when it holds bonds, the
`n_bond > 0` gate on the bonded and angular energy can be erased. -/
theorem gated_energy_eq (P : Param) (pos : ℕ → Fin 2 → ℝ) (L : Fin 2 → ℝ)
    (s : Topo) (hg : s.angles ≠ [] → s.bonds ≠ []) :
    (if s.bonds ≠ [] then
      bondPotSum P pos L s.posIdx s.bonds
        + anglePotSum P pos L (s.angles.zip s.angleBonds)
    else 0)
      = bondPotSum P pos L s.posIdx s.bonds
        + anglePotSum P pos L (s.angles.zip s.angleBonds) := by
  by_cases hb : s.bonds = []
  · rw [if_neg (by simp [hb])]
    have ha : s.angles = [] := by
      by_contra hA
      exact (hg hA) hb
    rw [hb, ha]
    simp [bondPotSum, anglePotSum]
  · rw [if_pos hb]

/-- Helper: for a slice that holds angles only when it holds bonds, the
`n_bond > 0` gate on the bonded and angular force can be erased. -/
theorem gated_force_eq (P : Param) (n : ℕ) (pos : ℕ → Fin 2 → ℝ)
    (L : Fin 2 → ℝ) (s : Topo) (hg : s.angles ≠ [] → s.bonds ≠ [])
    (i : Fin 2) (a : ℕ) :
    (if s.bonds ≠ [] then
      bondAngleForce P n pos L s.posIdx s.bonds s.frcs
        (s.angles.zip s.angleBonds) i a
    else 0)
      = bondAngleForce P n pos L s.posIdx s.bonds s.frcs
          (s.angles.zip s.angleBonds) i a := by
  by_cases hb : s.bonds = []
  · rw [if_neg (by simp [hb])]
    have ha : s.angles = [] := by
      by_contra hA
      exact (hg hA) hb
    rw [hb, ha]
    simp [bondAngleForce, npAddAtL, lastHit, bondForce, tempFrc]
  · rw [if_pos hb]

/-- C1 (amended): partition invariance of `calc_energy_forces`. For a valid
disjoint, covering distribution of the interaction index structures over any
number of slices — with matching `vdw_coeff` and `virial_indicies` masks,
duplicate-free scatter index lists, each slice's bonds inside its own
`pos_indices` mask, and (the amendment forced by the `n_bond > 0` guard)
every slice holding angle entries also holding a bond — summing the
per-slice potential energies, force arrays and virial tensors reproduces
exactly the single evaluation over the full index structures. -/
theorem partition_invariance_gated (P : Param) (n : ℕ) (pos : ℕ → Fin 2 → ℝ)
    (L : Fin 2 → ℝ) (vdwCoeff : ℕ × ℕ → ℝ) (virialIdx : ℕ × ℕ → Bool)
    (F : Topo) (ss : List Topo) (hp : ValidPartition F ss) :
    (calc_energy_forces P n pos L F vdwCoeff virialIdx).1
      = (ss.map (fun s => (calc_energy_forces P n pos L s vdwCoeff virialIdx).1)).sum ∧
    (∀ a i, (calc_energy_forces P n pos L F vdwCoeff virialIdx).2.1 a i
      = (ss.map (fun s =>
          (calc_energy_forces P n pos L s vdwCoeff virialIdx).2.1 a i)).sum) ∧
    (∀ i j, (calc_energy_forces P n pos L F vdwCoeff virialIdx).2.2 i j
      = (ss.map (fun s =>
          (calc_energy_forces P n pos L s vdwCoeff virialIdx).2.2 i j)).sum) := by
  obtain ⟨hcount, hlenB, hlenA, hlenS, hbz, haz, hsub, hndB, hnod1, hnod2, hnod3, hgate⟩ := hp
  have hbonds : F.bonds.Perm ((ss.map Topo.bonds).flatten) := by
    have h1 := hbz.map Prod.fst
    rw [List.map_fst_zip _ _ (le_of_eq hlenB), List.map_flatten, List.map_map] at h1
    simp only [Function.comp_def] at h1
    rwa [List.map_congr_left (fun s hs => List.map_fst_zip s.bonds s.frcs
      (le_of_eq (hlenS s hs).1))] at h1
  have hfrcs : F.frcs.Perm ((ss.map Topo.frcs).flatten) := by
    have h1 := hbz.map Prod.snd
    rw [List.map_snd_zip _ _ (le_of_eq hlenB.symm), List.map_flatten, List.map_map] at h1
    simp only [Function.comp_def] at h1
    rwa [List.map_congr_left (fun s hs => List.map_snd_zip s.bonds s.frcs
      (le_of_eq (hlenS s hs).1.symm))] at h1
  have hndS : ∀ s ∈ ss, s.frcs.Nodup := by
    intro s hs
    exact List.Nodup.sublist
      (List.sublist_flatten_of_mem (List.mem_map_of_mem Topo.frcs hs))
      (hfrcs.nodup hndB)
  have hkeyF : ∀ key : ℕ × ℕ × ℕ → ℕ,
      (F.angles.zip F.angleBonds).map (fun e => key e.1) = F.angles.map key := by
    intro key
    rw [show (fun e : AngleEntry => key e.1) = (key ∘ Prod.fst) from rfl,
      ← List.map_map, List.map_fst_zip _ _ (le_of_eq hlenA)]
  have hndA : ∀ key : ℕ × ℕ × ℕ → ℕ, (F.angles.map key).Nodup →
      ∀ s ∈ ss, ((s.angles.zip s.angleBonds).map (fun e => key e.1)).Nodup := by
    intro key hfull s hs
    have h1 := haz.map (fun e : AngleEntry => key e.1)
    rw [List.map_flatten, List.map_map] at h1
    have hflat :=
      h1.nodup (by rw [hkeyF key]; exact hfull)
    exact List.Nodup.sublist
      (List.sublist_flatten_of_mem
        (List.mem_map_of_mem (fun s => (s.angles.zip s.angleBonds).map
          (fun e => key e.1)) hs))
      (by simpa [Function.comp_def] using hflat)
  have hnd1F : ((F.angles.zip F.angleBonds).map (fun e => e.1.1)).Nodup := by
    rw [hkeyF (fun t => t.1)]
    exact hnod1
  have hnd2F : ((F.angles.zip F.angleBonds).map (fun e => e.1.2.1)).Nodup := by
    rw [hkeyF (fun t => t.2.1)]
    exact hnod2
  have hnd3F : ((F.angles.zip F.angleBonds).map (fun e => e.1.2.2)).Nodup := by
    rw [hkeyF (fun t => t.2.2)]
    exact hnod3
  have hvir : ∀ i j, (calc_energy_forces P n pos L F vdwCoeff virialIdx).2.2 i j
      = (ss.map (fun s =>
          (calc_energy_forces P n pos L s vdwCoeff virialIdx).2.2 i j)).sum := by
    intro i j
    rw [calc_virial,
      virialTensor_additive P n pos L vdwCoeff virialIdx F.posIdx ss hcount i j]
    exact congrArg List.sum (List.map_congr_left (fun s _ =>
      (calc_virial P n pos L s vdwCoeff virialIdx i j).symm))
  by_cases hbF : F.bonds = []
  · have hallb : ∀ s ∈ ss, s.bonds = [] := by
      intro s hs
      have hz : F.bonds.zip F.frcs = [] := by rw [hbF]; rfl
      rw [hz] at hbz
      have hflat : (ss.map (fun s => s.bonds.zip s.frcs)).flatten = [] :=
        (hbz.symm).eq_nil
      have hz2 : s.bonds.zip s.frcs = [] :=
        List.flatten_eq_nil_iff.mp hflat _ (List.mem_map_of_mem _ hs)
      have hlz := List.length_zip s.bonds s.frcs
      rw [hz2, ← (hlenS s hs).1, min_self] at hlz
      exact List.length_eq_zero.mp hlz.symm
    refine ⟨?_, ?_, hvir⟩
    · rw [calc_energy, if_neg (by simp [hbF]), zero_add,
        nonbondPot_additive P n pos L vdwCoeff F.posIdx ss hcount]
      exact congrArg List.sum (List.map_congr_left (fun s hs => by
        rw [calc_energy, if_neg (by simp [hallb s hs]), zero_add]))
    · intro a i
      rw [calc_force, if_neg (by simp [hbF]), zero_add,
        nonbondForce_additive P n pos L vdwCoeff F.posIdx ss hcount i a]
      exact congrArg List.sum (List.map_congr_left (fun s hs => by
        rw [calc_force, if_neg (by simp [hallb s hs]), zero_add]))
  · refine ⟨?_, ?_, hvir⟩
    · rw [calc_energy, if_pos hbF,
        bondPotSum_additive P pos L F.posIdx ss hcount F.bonds hbonds hsub,
        anglePotSum_additive P pos L ss (F.angles.zip F.angleBonds) haz,
        nonbondPot_additive P n pos L vdwCoeff F.posIdx ss hcount,
        ← list_sum_map_add ss (fun s => bondPotSum P pos L s.posIdx s.bonds)
          (fun s => anglePotSum P pos L (s.angles.zip s.angleBonds)),
        ← list_sum_map_add ss
          (fun s => bondPotSum P pos L s.posIdx s.bonds
            + anglePotSum P pos L (s.angles.zip s.angleBonds))
          (fun s => nonbondPot P n pos L s.posIdx vdwCoeff)]
      exact congrArg List.sum (List.map_congr_left (fun s hs => by
        rw [calc_energy, gated_energy_eq P pos L s (hgate s hs)]))
    · intro a i
      rw [calc_force, if_pos hbF,
        bondAngleForce_additive P n pos L F.posIdx ss hcount F.bonds F.frcs
          (F.angles.zip F.angleBonds) hlenB hndB hbz haz hsub
          (fun s hs => (hlenS s hs).1) hndS hnd1F hnd2F hnd3F
          (hndA (fun t => t.1) hnod1) (hndA (fun t => t.2.1) hnod2)
          (hndA (fun t => t.2.2) hnod3) i a,
        nonbondForce_additive P n pos L vdwCoeff F.posIdx ss hcount i a,
        ← list_sum_map_add ss
          (fun s => bondAngleForce P n pos L s.posIdx s.bonds s.frcs
            (s.angles.zip s.angleBonds) i a)
          (fun s => nonbondForce P n pos L s.posIdx vdwCoeff i a)]
      exact congrArg List.sum (List.map_congr_left (fun s hs => by
        rw [calc_force, gated_force_eq P n pos L s (hgate s hs) i a]))

/-- Helper: truncation toward zero of a real in `(-1, 1)` is zero. -/
theorem trunc0_small {q : ℝ} (h1 : -1 < q) (h2 : q < 1) : trunc0 q = 0 := by
  rw [trunc0]
  by_cases h : 0 ≤ q
  · rw [if_pos h, Int.floor_eq_zero_iff]
    exact ⟨h, h2⟩
  · rw [if_neg h, Int.ceil_eq_zero_iff]
    exact ⟨h1, le_of_not_le h⟩

/-- Helper: the angle-bond wrap fixes displacements with `|2d/L| < 1`. -/
theorem wrapAngle_small {L d : ℝ} (h1 : -1 < 2 * d / L) (h2 : 2 * d / L < 1) :
    wrapAngle L d = d := by
  rw [wrapAngle, trunc0_small h1 h2]
  norm_num

/-- Helper: the squared distance of the pair (0,1) of the three-bead chain
under the single-pair mask. -/
theorem pairR2_chain : pairR2 posChain box10 maskC1 (0, 1) = 1 := by
  have hd0 : pairDist posChain box10 maskC1 0 (0, 1) = -1 := by
    rw [pairDist, if_pos (by decide)]
    rw [show posChain ((0:ℕ), (1:ℕ)).1 0 - posChain ((0:ℕ), (1:ℕ)).2 0 = -1 by
      norm_num [posChain]]
    exact minImage_small (by norm_num [box10]) (by norm_num [box10]) (by norm_num [box10])
  have hd1 : pairDist posChain box10 maskC1 1 (0, 1) = 0 := by
    rw [pairDist, if_pos (by decide)]
    rw [show posChain ((0:ℕ), (1:ℕ)).1 1 - posChain ((0:ℕ), (1:ℕ)).2 1 = 0 by
      norm_num [posChain]]
    exact minImage_small (by norm_num [box10]) (by norm_num [box10]) (by norm_num [box10])
  rw [pairR2, Fin.sum_univ_two, hd0, hd1]
  norm_num

/-- Helper: with `rc = 1/2` every matrix position of the chain is excluded
from the non-bonded interaction under the single-pair mask. -/
theorem chain_excluded : ∀ q : ℕ × ℕ, pairR2 posChain box10 maskC1 q *
    check_cutoff (pairR2 posChain box10 maskC1 q) (paramC1.rc ^ 2) = 0 := by
  intro q
  by_cases hq : q = ((0:ℕ), (1:ℕ))
  · subst hq
    rw [pairR2_chain, check_cutoff, if_neg (by norm_num [paramC1]), mul_zero]
  · rw [pairR2_off_mask _ _ _ _ (by simp [maskC1, hq]), zero_mul]

/-- Helper: the non-bonded energy of the chain vanishes under the
single-pair mask. -/
theorem chain_nonbond_zero :
    nonbondPot paramC1 3 posChain box10 maskC1 (fun _ => 1) = 0 := by
  rw [nonbondPot_eq_sum_term, Finset.sum_eq_zero (fun p _ => by
    rw [nbPotTerm, if_neg (not_not_intro (chain_excluded p))])]
  norm_num

/-- Helper: the non-bonded energy of the chain vanishes under the empty
mask. -/
theorem chain_nonbond_zero_empty :
    nonbondPot paramC1 3 posChain box10 (fun _ => false) (fun _ => 1) = 0 := by
  rw [nonbondPot_eq_sum_term, Finset.sum_eq_zero (fun p _ => by
    rw [nbPotTerm, if_neg (not_not_intro (by
      rw [pairR2_off_mask _ _ _ _ rfl, zero_mul]))])]
  norm_num

/-- Helper: the single bond of the chain sits at its equilibrium length, so
its bonded energy is zero. -/
theorem chain_bondPot_zero :
    bondPotSum paramC1 posChain box10 maskC1 [(0, 1)] = 0 := by
  rw [bondPotSum, List.map_cons, List.map_nil, List.sum_cons, List.sum_nil,
    pairR2_chain, Real.sqrt_one]
  norm_num [pot_harmonic, paramC1]

/-- Helper: the chain's single angle is a right angle, `cos theta = 0`. -/
theorem chain_cos_zero : cosThe posChain box10 ((0, 1, 2), ((0, 1), (2, 1))) = 0 := by
  have hIJ0 : angleDisp posChain box10 ((0:ℕ), (1:ℕ)) 0 = -1 := by
    rw [angleDisp, show posChain ((0:ℕ), (1:ℕ)).1 0 - posChain ((0:ℕ), (1:ℕ)).2 0 = -1 by
      norm_num [posChain]]
    exact wrapAngle_small (by norm_num [box10]) (by norm_num [box10])
  have hIJ1 : angleDisp posChain box10 ((0:ℕ), (1:ℕ)) 1 = 0 := by
    rw [angleDisp, show posChain ((0:ℕ), (1:ℕ)).1 1 - posChain ((0:ℕ), (1:ℕ)).2 1 = 0 by
      norm_num [posChain]]
    exact wrapAngle_small (by norm_num [box10]) (by norm_num [box10])
  have hJK0 : angleDisp posChain box10 ((2:ℕ), (1:ℕ)) 0 = 0 := by
    rw [angleDisp, show posChain ((2:ℕ), (1:ℕ)).1 0 - posChain ((2:ℕ), (1:ℕ)).2 0 = 0 by
      norm_num [posChain]]
    exact wrapAngle_small (by norm_num [box10]) (by norm_num [box10])
  have hJK1 : angleDisp posChain box10 ((2:ℕ), (1:ℕ)) 1 = 1 := by
    rw [angleDisp, show posChain ((2:ℕ), (1:ℕ)).1 1 - posChain ((2:ℕ), (1:ℕ)).2 1 = 1 by
      norm_num [posChain]]
    exact wrapAngle_small (by norm_num [box10]) (by norm_num [box10])
  rw [cosThe, cos_sin_theta]
  simp only [vecIJ, vecJK]
  rw [dotProd, Fin.sum_univ_two]
  rw [hIJ0, hIJ1, hJK0, hJK1]
  norm_num

/-- C1 (counterexample): distributing the chain's interaction lists over two
slices — the bond to one, the angle to the other — is a disjoint, covering
partitioning, yet the angle-only slice has `n_bond = 0` and its angular
block is skipped, so the summed per-slice energies (0) differ from the full
evaluation (1). -/
theorem partition_counterexample :
    topoFull.bonds = topoBondSlice.bonds ++ topoAngleSlice.bonds ∧
    topoFull.frcs = topoBondSlice.frcs ++ topoAngleSlice.frcs ∧
    topoFull.angles = topoBondSlice.angles ++ topoAngleSlice.angles ∧
    topoFull.angleBonds = topoBondSlice.angleBonds ++ topoAngleSlice.angleBonds ∧
    (∀ p, topoFull.posIdx p = (topoBondSlice.posIdx p || topoAngleSlice.posIdx p)) ∧
    (∀ p, ¬(topoBondSlice.posIdx p = true ∧ topoAngleSlice.posIdx p = true)) ∧
    (calc_energy_forces paramC1 3 posChain box10 topoFull (fun _ => 1)
        (fun _ => true)).1
      ≠ (calc_energy_forces paramC1 3 posChain box10 topoBondSlice (fun _ => 1)
          (fun _ => true)).1
        + (calc_energy_forces paramC1 3 posChain box10 topoAngleSlice (fun _ => 1)
            (fun _ => true)).1 := by
  refine ⟨rfl, rfl, rfl, rfl, ?_, ?_, ?_⟩
  · intro p
    simp [topoFull, topoBondSlice, topoAngleSlice]
  · intro p
    simp [topoBondSlice, topoAngleSlice]
  · have hfull : (calc_energy_forces paramC1 3 posChain box10 topoFull (fun _ => 1)
        (fun _ => true)).1 = 1 := by
      rw [calc_energy, if_pos (by simp [topoFull])]
      rw [show topoFull.posIdx = maskC1 from rfl,
        show topoFull.bonds = [(0, 1)] from rfl,
        show topoFull.angles.zip topoFull.angleBonds
          = [((0, 1, 2), ((0, 1), (2, 1)))] from rfl]
      rw [chain_bondPot_zero, chain_nonbond_zero]
      rw [anglePotSum, List.map_cons, List.map_nil, List.sum_cons, List.sum_nil,
        chain_cos_zero]
      norm_num [paramC1]
    have hA : (calc_energy_forces paramC1 3 posChain box10 topoBondSlice (fun _ => 1)
        (fun _ => true)).1 = 0 := by
      rw [calc_energy, if_pos (by simp [topoBondSlice])]
      rw [show topoBondSlice.posIdx = maskC1 from rfl,
        show topoBondSlice.bonds = [(0, 1)] from rfl,
        show topoBondSlice.angles.zip topoBondSlice.angleBonds
          = ([] : List AngleEntry) from rfl]
      rw [chain_bondPot_zero, chain_nonbond_zero]
      rw [anglePotSum, List.map_nil, List.sum_nil]
      norm_num
    have hB : (calc_energy_forces paramC1 3 posChain box10 topoAngleSlice (fun _ => 1)
        (fun _ => true)).1 = 0 := by
      rw [calc_energy, if_neg (by simp [topoAngleSlice]), zero_add]
      exact chain_nonbond_zero_empty
    rw [hfull, hA, hB]
    norm_num

/-- Witness for C1 (amended): a valid two-slice distribution of the chain's
index structures (everything on one slice, the other empty) satisfies every
hypothesis, and the summed per-slice energies reproduce the full energy. -/
theorem partition_invariance_gated_witness :
    ValidPartition topoFull [topoFull, topoEmpty] ∧
    (calc_energy_forces paramC1 3 posChain box10 topoFull (fun _ => 1)
        (fun _ => true)).1
      = ([topoFull, topoEmpty].map (fun s =>
          (calc_energy_forces paramC1 3 posChain box10 s (fun _ => 1)
            (fun _ => true)).1)).sum := by
  have hvp : ValidPartition topoFull [topoFull, topoEmpty] := by
    refine ⟨?_, by decide, by decide, by decide, by decide, by decide, by decide,
      by decide, by decide, by decide, by decide, by decide⟩
    intro p
    by_cases h : topoFull.posIdx p = true <;>
      simp [List.countP_cons, List.countP_nil, topoEmpty, h]
  exact ⟨hvp, (partition_invariance_gated paramC1 3 posChain box10 (fun _ => 1)
    (fun _ => true) topoFull [topoFull, topoEmpty] hvp).1⟩

/-- Helper: the last-write increment of a single-element scatter. -/
theorem lastHit_singleton {α : Type} [DecidableEq α] (k : α) (v : ℝ) (x : α) :
    lastHit [(k, v)] x = if k = x then v else 0 := by
  rw [lastHit]
  by_cases h : k = x <;> simp [List.filter_cons, h]

/-- C8: for every angle entry, the angular force on the middle bead is the
negative of the sum of the angular forces on the two outer beads, so the
three angular force vectors of one triplet sum to the zero vector; and for
an isolated triplet evaluated through `calc_energy_forces` (one equilibrium
bond, one angle, no non-bonded pair inside the cutoff) the per-bead forces
of the three beads sum to the zero vector. -/
theorem angle_force_closure (k0 : ℝ) (pos : ℕ → Fin 2 → ℝ) (L : Fin 2 → ℝ)
    (e : AngleEntry) (i : Fin 2) :
    (frcAngleK k0 pos L e i = -(frcAngleIJ k0 pos L e i + frcAngleJK k0 pos L e i) ∧
     frcAngleIJ k0 pos L e i + frcAngleK k0 pos L e i + frcAngleJK k0 pos L e i = 0) ∧
    (∀ i' : Fin 2,
      (calc_energy_forces paramC1 3 posChain box10 topoFull (fun _ => 1)
        (fun _ => true)).2.1 0 i'
      + (calc_energy_forces paramC1 3 posChain box10 topoFull (fun _ => 1)
          (fun _ => true)).2.1 1 i'
      + (calc_energy_forces paramC1 3 posChain box10 topoFull (fun _ => 1)
          (fun _ => true)).2.1 2 i' = 0) := by
  constructor
  · refine ⟨rfl, ?_⟩
    rw [frcAngleK]
    ring
  · intro i'
    have hnb : ∀ a, nonbondForce paramC1 3 posChain box10 maskC1 (fun _ => 1) i' a = 0 := by
      intro a
      rw [nonbondForce]
      exact Finset.sum_eq_zero (fun b _ => by
        rw [tempXY, if_neg (not_not_intro (chain_excluded (b, a)))])
    have hval : bondVal paramC1 posChain box10 maskC1 i' (0, 1) = 0 := by
      rw [bondVal, pairR2_chain, Real.sqrt_one]
      norm_num [force_harmonic, paramC1]
    have hbf : ∀ a, bondForce paramC1 3 posChain box10 maskC1 [(0, 1)] [(0, 1)] i' a = 0 := by
      intro a
      rw [bondForce]
      apply Finset.sum_eq_zero
      intro b _
      rw [tempFrc,
        show ([((0:ℕ), (1:ℕ))].zip [((0:ℕ), (1:ℕ))]).map
          (fun q => (q.2, bondVal paramC1 posChain box10 maskC1 i' q.1))
          = [(((0:ℕ), (1:ℕ)), bondVal paramC1 posChain box10 maskC1 i' (0, 1))] from rfl,
        hval, npAddAtL, lastHit_singleton]
      by_cases h : ((0:ℕ), (1:ℕ)) = (a, b) <;> simp [h]
    have hforce : ∀ a : ℕ,
        (calc_energy_forces paramC1 3 posChain box10 topoFull (fun _ => 1)
          (fun _ => true)).2.1 a i'
        = bondForce paramC1 3 posChain box10 maskC1 [(0, 1)] [(0, 1)] i' a
          + lastHit [((0:ℕ), frcAngleIJ paramC1.angle_k0 posChain box10
              ((0, 1, 2), ((0, 1), (2, 1))) i')] a
          + lastHit [((1:ℕ), frcAngleK paramC1.angle_k0 posChain box10
              ((0, 1, 2), ((0, 1), (2, 1))) i')] a
          + lastHit [((2:ℕ), frcAngleJK paramC1.angle_k0 posChain box10
              ((0, 1, 2), ((0, 1), (2, 1))) i')] a
          + nonbondForce paramC1 3 posChain box10 maskC1 (fun _ => 1) i' a := by
      intro a
      rw [calc_force, if_pos (by simp [topoFull])]
      rfl
    rw [hforce 0, hforce 1, hforce 2, hbf 0, hbf 1, hbf 2, hnb 0, hnb 1, hnb 2]
    rw [lastHit_singleton, lastHit_singleton, lastHit_singleton,
      lastHit_singleton, lastHit_singleton, lastHit_singleton,
      lastHit_singleton, lastHit_singleton, lastHit_singleton]
    norm_num
    rw [frcAngleK]
    ring


end ColECM
